import Mathlib

/-!
# Verification of the `dough` money library

A shallow embedding of the Go package `dough` (files `money.go` /
`src/unnamed/part_002`): an integer-backed monetary value type with a
string parser/formatter, currency-checked arithmetic, and a proportional
allocator (`Share`).

Modelling conventions, fixed by the Go language and the source:
* Go `int` is modelled as `ℤ` with two's-complement wraparound at 64 bits
  (`wrap64`); Go `uint` as `ℕ` reduced mod `2^64` (the source targets the
  usual 64-bit platforms).
* The allocator computes its initial allocations through `float64`
  arithmetic (`ratios[i] = float64(w)/float64(sum)`; `ratios[i] * fa`).
  IEEE-754 binary64 values are modelled exactly as dyadic rationals
  `m * 2^e` with `2^52 ≤ |m| ≤ 2^53` (or `m = 0`), and every operation
  rounds its exact rational result to 53 significant bits with
  round-to-nearest, ties-to-even (`roundPos`).  All inputs reachable here
  are far inside the normal range of binary64, so overflow, underflow and
  subnormals cannot occur and are not modelled.
* Go's conversion `int(f)` of an out-of-range float is implementation
  specific; the model uses the amd64 behaviour (result `minInt64`).
* Go's integer division/remainder truncate toward zero (`goQuot`,
  `goRem`).
-/

set_option maxRecDepth 8000

namespace Dough

/-- Two's-complement wraparound of Go `int` (64-bit). -/
def wrap64 (z : ℤ) : ℤ := (z + 2 ^ 63) % 2 ^ 64 - 2 ^ 63

/-- Wraparound of Go `uint` (64-bit). -/
def wrapU64 (n : ℕ) : ℕ := n % 2 ^ 64

/-! ## Binary64 model -/

/-- Bit length, fuelled so that the kernel can evaluate it.  The fuel `n`
is always enough, since a positive number has at most `n` bits. -/
def bitsAux : ℕ → ℕ → ℕ
  | 0, _ => 0
  | fuel + 1, n => if n = 0 then 0 else bitsAux fuel (n / 2) + 1

/-- Bit length of a natural number (`bits 0 = 0`, `bits 1 = 1`, …). -/
def bits (n : ℕ) : ℕ := bitsAux n n

/-- Round `num / den` to the nearest integer, ties to even. -/
def rne (num den : ℕ) : ℕ :=
  let q := num / den
  let r := num % den
  if 2 * r < den then q
  else if den < 2 * r then q + 1
  else if q % 2 = 0 then q else q + 1

/-- Decide `2 ^ k * den ≤ num` for a signed `k`. -/
def geScaled (num den : ℕ) (k : ℤ) : Bool :=
  if 0 ≤ k then decide (2 ^ k.toNat * den ≤ num)
  else decide (den ≤ 2 ^ (-k).toNat * num)

/-- Round the non-negative rational `num / den` to a binary64 value:
the result `(m, e)` stands for `m * 2^e` with `2^52 ≤ m ≤ 2^53`
(`(0, 0)` for zero).  This is IEEE-754 round-to-nearest, ties-to-even,
restricted to the normal range. -/
def roundPos (num den : ℕ) : ℕ × ℤ :=
  if num = 0 then (0, 0)
  else
    let k : ℤ := (bits num : ℤ) - (bits den : ℤ)
    let g : ℤ := if geScaled num den k then k - 52 else k - 53
    let m := if 0 ≤ g then rne num (den * 2 ^ g.toNat)
             else rne (num * 2 ^ (-g).toNat) den
    (m, g)

/-- A binary64 value: signed significand and exponent, value `m * 2^e`. -/
abbrev FP := ℤ × ℤ

/-- The exact rational value of a modelled binary64 number. -/
def fVal (x : FP) : ℚ := (x.1 : ℚ) * 2 ^ x.2

/-- `float64(n)` for a Go `uint` operand. -/
def flOfNat (n : ℕ) : FP := (((roundPos n 1).1 : ℤ), (roundPos n 1).2)

/-- `float64(a)` for a Go `int` operand. -/
def flOfInt (a : ℤ) : FP :=
  (if a < 0 then -((roundPos a.natAbs 1).1 : ℤ) else ((roundPos a.natAbs 1).1 : ℤ),
   (roundPos a.natAbs 1).2)

/-- IEEE-754 binary64 division (normal range). -/
def flDiv (x y : FP) : FP :=
  let r := roundPos x.1.natAbs y.1.natAbs
  (if (x.1 < 0) = (y.1 < 0) then (r.1 : ℤ) else -(r.1 : ℤ), r.2 + x.2 - y.2)

/-- IEEE-754 binary64 multiplication (normal range). -/
def flMul (x y : FP) : FP :=
  let r := roundPos (x.1 * y.1).natAbs 1
  (if (x.1 < 0) = (y.1 < 0) then (r.1 : ℤ) else -(r.1 : ℤ), r.2 + x.2 + y.2)

/-- `math.Trunc`: truncate a binary64 value toward zero (as an integer;
the result of `math.Trunc` is always exactly representable). -/
def truncF (x : FP) : ℤ :=
  if 0 ≤ x.2 then x.1 * 2 ^ x.2.toNat
  else if 0 ≤ x.1 then ((x.1.natAbs / 2 ^ (-x.2).toNat : ℕ) : ℤ)
  else -((x.1.natAbs / 2 ^ (-x.2).toNat : ℕ) : ℤ)

/-- Go `int(f)` of an integral float: in-range values convert exactly;
out-of-range conversion is implementation specific and modelled with the
amd64 behaviour (`minInt64`). -/
def intOfFloat (x : FP) : ℤ :=
  let t := truncF x
  if -2 ^ 63 ≤ t ∧ t < 2 ^ 63 then t else -2 ^ 63

-- Sanity checks of the float model against IEEE-754 reference values.
example : flDiv (flOfNat 3) (flOfNat 4) = (3 * 2 ^ 51, -53) := by decide
example : flDiv (flOfNat 3) (flOfNat 10) = (5404319552844595, -54) := by decide
example : flDiv (flOfNat 7) (flOfNat 10) = (6305039478318694, -53) := by decide
example : flDiv (flOfNat 1) (flOfNat 2) = (2 ^ 52, -53) := by decide
example : truncF (flMul (flDiv (flOfNat 3) (flOfNat 10)) (flOfInt 105)) = 31 := by decide
example : truncF (flMul (flDiv (flOfNat 7) (flOfNat 10)) (flOfInt 105)) = 73 := by decide
example : truncF (flMul (flDiv (flOfNat 1) (flOfNat 2)) (flOfInt 5)) = 2 := by decide
example : truncF (flMul (flDiv (flOfNat 3) (flOfNat 10)) (flOfInt (-105))) = -31 := by decide

/-! ## Money, parser, formatter, arithmetic -/

/-- `Money` (money.go): a currency (the normalized ISO code, as rendered
by `currency.Unit.String`) and the amount in atoms (a Go `int`). -/
structure Money where
  c : String
  a : ℤ
  deriving DecidableEq

/-- Largest Go `int` value (64-bit platforms). -/
def maxInt64 : ℕ := 2 ^ 63 - 1

def digitVal (c : Char) : ℕ := c.toNat - 48

def digitChar (d : ℕ) : Char := Char.ofNat (48 + d)

/-- Decimal value of a digit string. -/
def digitsVal (l : List Char) : ℕ := l.foldl (fun a c => a * 10 + digitVal c) 0

/-- The regexp `(-)?(\d+)(\.([\d]{2}))?` of `strToInt`, anchored on both
sides: the sign, the integer-part digits and the fractional digits
(`[]` when the optional fractional group is absent). -/
def matchCore (b : Bool) (r : List Char) :
    Option (Bool × List Char × List Char) :=
  let ds := r.takeWhile Char.isDigit
  let rest := r.dropWhile Char.isDigit
  if ds.isEmpty then none
  else
    match rest with
    | [] => some (b, ds, [])
    | [c, d1, d2] =>
      if c = '.' && d1.isDigit && d2.isDigit then some (b, ds, [d1, d2])
      else none
    | _ => none

def matchAmount (s : List Char) : Option (Bool × List Char × List Char) :=
  match s with
  | c :: r => if c = '-' then matchCore true r else matchCore false (c :: r)
  | [] => matchCore false []

/-- `strToInt` (money.go): parse an amount string into atoms.  The digit
strings of both groups are concatenated and fed to `strconv.Atoi`, which
fails with `ErrRange` when the value exceeds `maxInt64`; the sign is
applied afterwards. -/
def strToInt (s : List Char) : Option ℤ :=
  match matchAmount s with
  | none => none
  | some (neg, ds, fs) =>
    let v := digitsVal (ds ++ fs)
    if v ≤ maxInt64 then some (if neg then -(v : ℤ) else (v : ℤ)) else none

/-- Go `/` on `int` with a positive divisor (truncates toward zero). -/
def goQuot (a : ℤ) (n : ℕ) : ℤ :=
  if 0 ≤ a then ((a.natAbs / n : ℕ) : ℤ) else -((a.natAbs / n : ℕ) : ℤ)

/-- Go `%` on `int` with a positive divisor (sign of the dividend). -/
def goRem (a : ℤ) (n : ℕ) : ℤ :=
  if 0 ≤ a then ((a.natAbs % n : ℕ) : ℤ) else -((a.natAbs % n : ℕ) : ℤ)

def natDigitsRev : ℕ → ℕ → List ℕ
  | 0, _ => []
  | fuel + 1, n => if n = 0 then [] else n % 10 :: natDigitsRev fuel (n / 10)

/-- Decimal digits of `n`, most significant first (`[0]` for zero). -/
def natToDigits (n : ℕ) : List ℕ :=
  if n = 0 then [0] else (natDigitsRev n n).reverse

/-- `strconv.Itoa` on a non-negative value. -/
def itoaNat (n : ℕ) : List Char := (natToDigits n).map digitChar

/-- `strconv.Itoa`. -/
def itoaInt (z : ℤ) : List Char :=
  if z < 0 then '-' :: itoaNat z.natAbs else itoaNat z.natAbs

/-- `fmt.Sprintf("%02d", m)`: pad to a minimum width of 2. -/
def pad2 (m : ℤ) : List Char :=
  let s := itoaInt m
  if s.length < 2 then '0' :: s else s

/-- `Money.Amount` (money.go): render the atoms as a decimal string.
The negation of the magnitude wraps (visible only at `minInt64`). -/
def Money.Amount (x : Money) : List Char :=
  let neg : List Char := if x.a < 0 then ['-'] else []
  let a : ℤ := if x.a < 0 then wrap64 (-x.a) else x.a
  neg ++ itoaInt (goQuot a 100) ++ '.' :: pad2 (goRem a 100)

def Money.Currency (x : Money) : String := x.c

/-- `addSub` (money.go): currency-checked addition/subtraction;
`none` is the `CurrencyMismatch` error.  Go `int` addition wraps. -/
def addSub (x y : Money) (add : Bool) : Option Money :=
  if x.Currency ≠ y.Currency then none
  else some ⟨x.c, wrap64 (if add then x.a + y.a else x.a - y.a)⟩

def Money.Add (x y : Money) : Option Money := addSub x y true

def Money.Sub (x y : Money) : Option Money := addSub x y false

/-- `Money.Cmp` (money.go). -/
def Money.Cmp (x y : Money) : Option ℤ :=
  if x.Currency ≠ y.Currency then none
  else some (if x.a < y.a then -1 else if x.a = y.a then 0 else 1)

/-! ## The allocator (`Share`) -/

/-- The `uint` sum of the weightings (`sum += w`), wrapping at 64 bits. -/
def sumWrapU (ws : List ℕ) : ℕ := ws.foldl (fun s w => wrapU64 (s + w)) 0

/-- The weightings `Share` actually uses: all ones when the computed sum
is zero.  Go writes this back into the caller's slice. -/
def usedWeights (ws : List ℕ) : List ℕ :=
  if sumWrapU ws = 0 then List.replicate ws.length 1 else ws

/-- The weight total `Share` divides by (`sum`, possibly `uint(n)`). -/
def usedSum (ws : List ℕ) : ℕ :=
  if sumWrapU ws = 0 then wrapU64 ws.length else sumWrapU ws

/-- `ratios[i] = float64(weightings[i]) / float64(sum)`. -/
def ratios (ws : List ℕ) : List FP :=
  (usedWeights ws).map (fun w => flDiv (flOfNat w) (flOfNat (usedSum ws)))

/-- `allocations[i] = int(math.Trunc(ratios[i] * fa))`. -/
def initialAllocations (a : ℤ) (ws : List ℕ) : List ℤ :=
  (ratios ws).map (fun r => intOfFloat (flMul r (flOfInt a)))

/-- `rem` after the initial-allocation loop (`rem -= a`, wrapping). -/
def initialRem (a : ℤ) (ws : List ℕ) : ℤ :=
  (initialAllocations a ws).foldl (fun r ai => wrap64 (r - ai)) a

/-- Outcome of the remainder-distribution loop: `ok` is a normal exit
(the remainder has reached 0), `fault` is a runtime panic inside the
loop — `weightings[ind]` with a negative index after the `int` counter
has wrapped, or `i % n` with `n = 0` — and `fuelOut` is exhaustion of
the model's fuel (a model artifact; the fuel passed below is provably
sufficient wherever a theorem relies on it). -/
inductive LoopResult where
  | ok (alloc : List ℤ) (rem : ℤ)
  | fault
  | fuelOut
deriving DecidableEq

/-- The remainder-distribution loop of `Share`
(`for i := 0; rem != 0; i++`).  The counter `i` is a Go `int`: `i++`
wraps at two's-complement 64 bits, and once `i` is negative `i % n` is
negative (Go `%` takes the dividend's sign), so the slice access
`weightings[ind]` panics with an index-out-of-range runtime error — the
`fault` outcome.  With `n = 0` the first `i % n` is a division by zero,
also a runtime panic. -/
def shareLoop (ws : List ℕ) (n : ℕ) (d : ℤ) :
    ℕ → ℤ → List ℤ → ℤ → LoopResult
  | 0, _, _, _ => .fuelOut
  | fuel + 1, i, alloc, rem =>
    if rem = 0 then .ok alloc rem
    else if n = 0 ∨ goRem i n < 0 then .fault
    else if ws.getD (goRem i n).toNat 0 = 0 then
      shareLoop ws n d fuel (wrap64 (i + 1)) alloc rem
    else
      shareLoop ws n d fuel (wrap64 (i + 1))
        (alloc.set (goRem i n).toNat
          (wrap64 (alloc.getD (goRem i n).toNat 0 + d)))
        (wrap64 (rem - d))

def shareFuel (n : ℕ) : ℕ := n * 2 ^ 63 + n + 1

/-- Outcome of `Share`'s distribution loop on the initial allocations. -/
def shareResult (x : Money) (ws : List ℕ) : LoopResult :=
  let rem := initialRem x.a ws
  let d : ℤ := if rem < 0 then -1 else 1
  shareLoop (usedWeights ws) ws.length d (shareFuel ws.length) 0
    (initialAllocations x.a ws) rem

/-- The conservation check's total (`total += allocations[i]`, wrapping). -/
def wrapTotal (l : List ℤ) : ℤ := l.foldl (fun t ai => wrap64 (t + ai)) 0

/-- The value `Share` returns, with `none` standing for a run that does
not return: either the conservation-check panic
(`AllocationInvariantViolation`, when the loop finished but the wrapped
total misses `x.a`) or a runtime fault inside the loop. -/
def shareOutcome (x : Money) (ws : List ℕ) : Option (List Money) :=
  match shareResult x ws with
  | .ok alloc _ =>
    if wrapTotal alloc = x.a then some (alloc.map (fun ai => Money.mk x.c ai))
    else none
  | _ => none

/-- `Money.Share` (money.go).  The first component is the returned
slice (`none` when the call panics instead of returning); the second is
the content of the caller's weighting slice after the call (the
all-ones fallback is written into it). -/
def Money.Share (x : Money) (weightings : List ℕ) :
    Option (List Money) × List ℕ :=
  (shareOutcome x weightings, usedWeights weightings)

-- Sanity checks against the Go test suite (`TestCanCreate`,
-- `TestCanAllocate`, …).
example : strToInt "123.45".toList = some 12345 := by decide
example : strToInt "-0.01".toList = some (-1) := by decide
example : strToInt "10.S0".toList = none := by decide
example : strToInt "1f.00".toList = none := by decide
example : (Money.mk "GBP" 12345).Amount = "123.45".toList := by decide
example : (Money.mk "GBP" (-1)).Amount = "-0.01".toList := by decide
example : (Money.mk "GBP" 0).Amount = "0.00".toList := by decide
example : (Money.Share ⟨"GBP", 105⟩ [3, 7]).1 =
    some [⟨"GBP", 32⟩, ⟨"GBP", 73⟩] := by decide
example : (Money.Share ⟨"GBP", 5⟩ [1, 1]).1 =
    some [⟨"GBP", 3⟩, ⟨"GBP", 2⟩] := by decide
example : (Money.Share ⟨"GBP", 100⟩ [1, 1, 1]).1 =
    some [⟨"GBP", 34⟩, ⟨"GBP", 33⟩, ⟨"GBP", 33⟩] := by decide
example : (Money.Share ⟨"GBP", 30000⟩ [122, 878]).1 =
    some [⟨"GBP", 3660⟩, ⟨"GBP", 26340⟩] := by decide
example : (Money.Share ⟨"GBP", 3⟩ [0, 4, 2]).1 =
    some [⟨"GBP", 0⟩, ⟨"GBP", 2⟩, ⟨"GBP", 1⟩] := by decide
example : (Money.Share ⟨"GBP", (-105)⟩ [3, 7]).1 =
    some [⟨"GBP", -32⟩, ⟨"GBP", -73⟩] := by decide
example : (Money.Share ⟨"GBP", 30000⟩ [0, 0, 0]).1 =
    some [⟨"GBP", 10000⟩, ⟨"GBP", 10000⟩, ⟨"GBP", 10000⟩] := by decide
example : (Money.Share ⟨"GBP", 30000⟩ [0]).1 = some [⟨"GBP", 30000⟩] := by decide
example : goRem (-(2 ^ 63)) 3 = -2 := by decide
example : shareResult ⟨"GBP", 105⟩ [3, 7] = .ok [32, 73] 0 := by decide

/-- The spec grammar of an amount (§4.2): an optional leading minus, one
or more decimal digits, and optionally a dot followed by exactly two
decimal digits. -/
def amountGrammar (s : List Char) : Prop :=
  ∃ (neg : Bool) (ds fs : List Char),
    s = (if neg then ['-'] else []) ++ ds ++ fs ∧ ds ≠ [] ∧
    (∀ c ∈ ds, c.isDigit) ∧
    (fs = [] ∨ ∃ d1 d2, fs = ['.', d1, d2] ∧ d1.isDigit ∧ d2.isDigit)

/-! ## Supporting lemmas: wraparound arithmetic -/

theorem wrap64_eq_self {z : ℤ} (h1 : -2 ^ 63 ≤ z) (h2 : z < 2 ^ 63) :
    wrap64 z = z := by
  unfold wrap64; omega

theorem wrap64_lb (z : ℤ) : -2 ^ 63 ≤ wrap64 z := by unfold wrap64; omega

theorem wrap64_ub (z : ℤ) : wrap64 z < 2 ^ 63 := by unfold wrap64; omega

theorem wrap64_emod (z : ℤ) : wrap64 z % 2 ^ 64 = z % 2 ^ 64 := by
  unfold wrap64; omega

theorem wrap64_congr {a b : ℤ} (h : a % 2 ^ 64 = b % 2 ^ 64) :
    wrap64 a = wrap64 b := by
  unfold wrap64; omega

theorem wrap64_add_left (a b : ℤ) : wrap64 (wrap64 a + b) = wrap64 (a + b) := by
  unfold wrap64; omega

theorem wrap64_sub_left (a b : ℤ) : wrap64 (wrap64 a - b) = wrap64 (a - b) := by
  unfold wrap64; omega

theorem foldl_wrap_add (l : List ℤ) : ∀ t : ℤ,
    l.foldl (fun s ai => wrap64 (s + ai)) (wrap64 t) = wrap64 (t + l.sum) := by
  induction l with
  | nil => intro t; simp
  | cons a l ih =>
    intro t
    simp only [List.foldl_cons, List.sum_cons]
    rw [wrap64_add_left, ih]
    ring_nf

theorem foldl_wrap_sub (l : List ℤ) : ∀ t : ℤ,
    l.foldl (fun r ai => wrap64 (r - ai)) (wrap64 t) = wrap64 (t - l.sum) := by
  induction l with
  | nil => intro t; simp
  | cons a l ih =>
    intro t
    simp only [List.foldl_cons, List.sum_cons]
    rw [wrap64_sub_left, ih]
    ring_nf

theorem wrapTotal_eq (l : List ℤ) : wrapTotal l = wrap64 l.sum := by
  have h0 : (0 : ℤ) = wrap64 0 := by decide
  unfold wrapTotal
  rw [h0, foldl_wrap_add, zero_add]

theorem foldlU_wrap (l : List ℕ) : ∀ t : ℕ,
    l.foldl (fun s w => wrapU64 (s + w)) (wrapU64 t) = wrapU64 (t + l.sum) := by
  induction l with
  | nil => intro t; simp
  | cons a l ih =>
    intro t
    simp only [List.foldl_cons, List.sum_cons]
    have h : wrapU64 (wrapU64 t + a) = wrapU64 (t + a) := by unfold wrapU64; omega
    rw [h, ih]
    ring_nf

theorem sumWrapU_eq (ws : List ℕ) : sumWrapU ws = ws.sum % 2 ^ 64 := by
  have h0 : (0 : ℕ) = wrapU64 0 := rfl
  unfold sumWrapU
  rw [h0, foldlU_wrap, zero_add]
  rfl

/-! ## Supporting lemmas: the allocator pipeline -/

theorem usedWeights_length (ws : List ℕ) :
    (usedWeights ws).length = ws.length := by
  unfold usedWeights; split <;> simp

theorem initialAllocations_length (a : ℤ) (ws : List ℕ) :
    (initialAllocations a ws).length = ws.length := by
  unfold initialAllocations ratios
  simp [usedWeights_length]

theorem initialRem_eq (a : ℤ) (ws : List ℕ) (h : ws ≠ []) :
    initialRem a ws = wrap64 (a - (initialAllocations a ws).sum) := by
  unfold initialRem
  rcases hl : initialAllocations a ws with _ | ⟨b, l⟩
  · exfalso
    have hlen := initialAllocations_length a ws
    rw [hl] at hlen
    simp only [List.length_nil] at hlen
    exact h (List.length_eq_zero.mp hlen.symm)
  · simp only [List.foldl_cons, List.sum_cons]
    rw [foldl_wrap_sub]
    ring_nf

theorem goRem_of_nonneg (i : ℤ) (n : ℕ) (h : 0 ≤ i) :
    goRem i n = ((i.toNat % n : ℕ) : ℤ) := by
  unfold goRem
  rw [if_pos h]
  have h2 : i.natAbs = i.toNat := by omega
  rw [h2]

theorem goRem_nonneg (i : ℤ) (n : ℕ) (h : 0 ≤ i) : 0 ≤ goRem i n := by
  rw [goRem_of_nonneg i n h]
  exact Int.natCast_nonneg _

theorem goRem_toNat_of_nonneg (i : ℤ) (n : ℕ) (h : 0 ≤ i) :
    (goRem i n).toNat = i.toNat % n := by
  rw [goRem_of_nonneg i n h]
  exact Int.toNat_natCast _

theorem goRem_toNat_lt (i : ℤ) (n : ℕ) (hn : 0 < n) :
    (goRem i n).toNat < n := by
  unfold goRem
  have hm : i.natAbs % n < n := Nat.mod_lt _ hn
  by_cases h : 0 ≤ i
  · rw [if_pos h]
    omega
  · rw [if_neg h]
    omega

theorem shareLoop_zero_fuel (ws : List ℕ) (n : ℕ) (d : ℤ) (i : ℤ)
    (alloc : List ℤ) (rem : ℤ) :
    shareLoop ws n d 0 i alloc rem = .fuelOut := rfl

theorem shareLoop_succ_eq (ws : List ℕ) (n : ℕ) (d : ℤ) (fuel : ℕ) (i : ℤ)
    (alloc : List ℤ) (rem : ℤ) :
    shareLoop ws n d (fuel + 1) i alloc rem =
      if rem = 0 then .ok alloc rem
      else if n = 0 ∨ goRem i n < 0 then .fault
      else if ws.getD (goRem i n).toNat 0 = 0 then
        shareLoop ws n d fuel (wrap64 (i + 1)) alloc rem
      else
        shareLoop ws n d fuel (wrap64 (i + 1))
          (alloc.set (goRem i n).toNat
            (wrap64 (alloc.getD (goRem i n).toNat 0 + d)))
          (wrap64 (rem - d)) := rfl

theorem shareLoop_zero_rem (ws : List ℕ) (n : ℕ) (d : ℤ) (fuel : ℕ) (i : ℤ)
    (alloc : List ℤ) : shareLoop ws n d (fuel + 1) i alloc 0 = .ok alloc 0 := by
  rw [shareLoop_succ_eq, if_pos rfl]

theorem shareLoop_step_skip (ws : List ℕ) (n : ℕ) (d : ℤ) (fuel : ℕ) (i : ℤ)
    (alloc : List ℤ) (rem : ℤ) (h0 : rem ≠ 0)
    (hv : ¬(n = 0 ∨ goRem i n < 0))
    (hw : ws.getD (goRem i n).toNat 0 = 0) :
    shareLoop ws n d (fuel + 1) i alloc rem =
      shareLoop ws n d fuel (wrap64 (i + 1)) alloc rem := by
  rw [shareLoop_succ_eq, if_neg h0, if_neg hv, if_pos hw]

theorem shareLoop_step_hit (ws : List ℕ) (n : ℕ) (d : ℤ) (fuel : ℕ) (i : ℤ)
    (alloc : List ℤ) (rem : ℤ) (h0 : rem ≠ 0)
    (hv : ¬(n = 0 ∨ goRem i n < 0))
    (hw : ws.getD (goRem i n).toNat 0 ≠ 0) :
    shareLoop ws n d (fuel + 1) i alloc rem =
      shareLoop ws n d fuel (wrap64 (i + 1))
        (alloc.set (goRem i n).toNat
          (wrap64 (alloc.getD (goRem i n).toNat 0 + d)))
        (wrap64 (rem - d)) := by
  rw [shareLoop_succ_eq, if_neg h0, if_neg hv, if_neg hw]

theorem shareLoop_step_fault (ws : List ℕ) (n : ℕ) (d : ℤ) (fuel : ℕ) (i : ℤ)
    (alloc : List ℤ) (rem : ℤ) (h0 : rem ≠ 0) (hv : n = 0 ∨ goRem i n < 0) :
    shareLoop ws n d (fuel + 1) i alloc rem = .fault := by
  rw [shareLoop_succ_eq, if_neg h0, if_pos hv]

/-- One in-range pass of the distribution loop: from counter `i`, the
loop skips the `g` ineligible indices in front of it, adds `d` at the
first eligible index, and moves the remainder one unit — earlier
eligible positions receive the surplus or deficit first. -/
theorem shareLoop_advance (ws : List ℕ) (n : ℕ) (d : ℤ) (hn : 0 < n) :
    ∀ (g fuel : ℕ) (i : ℤ) (alloc : List ℤ) (rem : ℤ), rem ≠ 0 →
    0 ≤ i → i + g + 1 < 2 ^ 63 →
    (∀ t : ℕ, t < g → ws.getD ((i.toNat + t) % n) 0 = 0) →
    ws.getD ((i.toNat + g) % n) 0 ≠ 0 →
    shareLoop ws n d (fuel + (g + 1)) i alloc rem =
      shareLoop ws n d fuel (i + g + 1)
        (alloc.set ((i.toNat + g) % n)
          (wrap64 (alloc.getD ((i.toNat + g) % n) 0 + d)))
        (wrap64 (rem - d)) := by
  intro g
  induction g with
  | zero =>
    intro fuel i alloc rem hrem hi0 hbud hskip helig
    rw [show i.toNat + 0 = i.toNat by omega] at helig
    have hne : ¬(n = 0 ∨ goRem i n < 0) := by
      push_neg
      exact ⟨by omega, goRem_nonneg i n hi0⟩
    have htn : (goRem i n).toNat = i.toNat % n := goRem_toNat_of_nonneg i n hi0
    show (if rem = 0 then LoopResult.ok alloc rem
      else if n = 0 ∨ goRem i n < 0 then LoopResult.fault
      else if ws.getD (goRem i n).toNat 0 = 0 then
        shareLoop ws n d fuel (wrap64 (i + 1)) alloc rem
      else
        shareLoop ws n d fuel (wrap64 (i + 1))
          (alloc.set (goRem i n).toNat
            (wrap64 (alloc.getD (goRem i n).toNat 0 + d)))
          (wrap64 (rem - d))) = _
    rw [if_neg hrem, if_neg hne, htn, if_neg helig,
      wrap64_eq_self (show -2 ^ 63 ≤ i + 1 by omega)
        (show i + 1 < 2 ^ 63 by push_cast at hbud; omega)]
    norm_num
  | succ g ih =>
    intro fuel i alloc rem hrem hi0 hbud hskip helig
    have h0 : ws.getD (i.toNat % n) 0 = 0 := by
      have h := hskip 0 (by omega)
      rwa [show i.toNat + 0 = i.toNat by omega] at h
    have hne : ¬(n = 0 ∨ goRem i n < 0) := by
      push_neg
      exact ⟨by omega, goRem_nonneg i n hi0⟩
    have htn : (goRem i n).toNat = i.toNat % n := goRem_toNat_of_nonneg i n hi0
    have hi1 : i + 1 < 2 ^ 63 := by push_cast at hbud; omega
    have hstep : shareLoop ws n d (fuel + (g + 1 + 1)) i alloc rem =
        shareLoop ws n d (fuel + (g + 1)) (i + 1) alloc rem := by
      rw [show fuel + (g + 1 + 1) = (fuel + (g + 1)) + 1 by omega]
      show (if rem = 0 then LoopResult.ok alloc rem
        else if n = 0 ∨ goRem i n < 0 then LoopResult.fault
        else if ws.getD (goRem i n).toNat 0 = 0 then
          shareLoop ws n d (fuel + (g + 1)) (wrap64 (i + 1)) alloc rem
        else
          shareLoop ws n d (fuel + (g + 1)) (wrap64 (i + 1))
            (alloc.set (goRem i n).toNat
              (wrap64 (alloc.getD (goRem i n).toNat 0 + d)))
            (wrap64 (rem - d))) = _
      rw [if_neg hrem, if_neg hne, htn, if_pos h0,
        wrap64_eq_self (show -2 ^ 63 ≤ i + 1 by omega) hi1]
    rw [hstep]
    have hskip' : ∀ t : ℕ, t < g → ws.getD (((i + 1).toNat + t) % n) 0 = 0 := by
      intro t ht
      have h := hskip (t + 1) (by omega)
      rwa [show i.toNat + (t + 1) = (i + 1).toNat + t by omega] at h
    have helig' : ws.getD (((i + 1).toNat + g) % n) 0 ≠ 0 := by
      rwa [show i.toNat + (g + 1) = (i + 1).toNat + g by omega] at helig
    rw [ih fuel (i + 1) alloc rem hrem (by omega)
      (by push_cast at hbud ⊢; omega) hskip' helig']
    rw [show (i + 1).toNat + g = i.toNat + (g + 1) by omega,
      show i + 1 + (g : ℤ) + 1 = i + ((g + 1 : ℕ) : ℤ) + 1 by push_cast; ring]

theorem sum_set_getD : ∀ (l : List ℤ) (i : ℕ) (v : ℤ), i < l.length →
    (l.set i v).sum = l.sum - l.getD i 0 + v := by
  intro l
  induction l with
  | nil => intro i v h; simp at h
  | cons a t ih =>
    intro i v h
    cases i with
    | zero => simp [List.set]; ring
    | succ j =>
      simp only [List.set, List.sum_cons, List.getD_cons_succ]
      rw [ih j v (by simpa using h)]
      ring

/-- With an eligible index, a matching direction, and fuel, counter
budget and slice entries all inside the no-wrap window, the loop exits
normally with the whole remainder distributed exactly. -/
theorem shareLoop_run (ws : List ℕ) (n : ℕ) (d : ℤ) :
    ∀ (k fuel : ℕ) (i : ℤ) (alloc : List ℤ) (rem : ℤ),
    (∃ j, j < n ∧ ws.getD j 0 ≠ 0) →
    ((d = 1 ∧ 0 ≤ rem) ∨ (d = -1 ∧ rem ≤ 0)) →
    rem.natAbs ≤ k → n * k + 1 ≤ fuel →
    0 ≤ i → i + (n * k : ℕ) + 1 ≤ 2 ^ 63 →
    alloc.length = n →
    (∀ m ∈ alloc, m.natAbs + k < 2 ^ 63) →
    ∃ alloc', shareLoop ws n d fuel i alloc rem = .ok alloc' 0 ∧
      alloc'.sum = alloc.sum + rem ∧ alloc'.length = n := by
  intro k
  induction k with
  | zero =>
    intro fuel i alloc rem _ _ habs hfuel _ _ hlen _
    have h0 : rem = 0 := by omega
    subst h0
    obtain ⟨f, rfl⟩ : ∃ f, fuel = f + 1 := ⟨fuel - 1, by omega⟩
    exact ⟨alloc, by rw [shareLoop_zero_rem], by ring, hlen⟩
  | succ k ih =>
    intro fuel i alloc rem hE hsign habs hfuel hi0 hbud hlen hbound
    by_cases h0 : rem = 0
    · subst h0
      obtain ⟨f, rfl⟩ : ∃ f, fuel = f + 1 := ⟨fuel - 1, by omega⟩
      exact ⟨alloc, by rw [shareLoop_zero_rem], by ring, hlen⟩
    · obtain ⟨j, hj, hjne⟩ := hE
      have hn : 0 < n := by omega
      have hk63 : k + 1 ≤ 2 ^ 63 := by
        have hnil : alloc ≠ [] := by
          intro hnil
          rw [hnil] at hlen
          simp at hlen
          omega
        obtain ⟨m, hm⟩ := List.exists_mem_of_ne_nil alloc hnil
        have := hbound m hm
        omega
      have hdm := Nat.div_add_mod i.toNat n
      have hr : i.toNat % n < n := Nat.mod_lt _ hn
      have hkey : (i.toNat + (j + n - i.toNat % n)) % n = j := by
        have h1 : i.toNat + (j + n - i.toNat % n) = n * (i.toNat / n + 1) + j := by
          have h2 : n * (i.toNat / n + 1) = n * (i.toNat / n) + n := by ring
          omega
        rw [h1, Nat.mul_add_mod]
        exact Nat.mod_eq_of_lt hj
      have hwit : ws.getD ((i.toNat + (j + n - i.toNat % n) % n) % n) 0 ≠ 0 := by
        have hmm : (i.toNat + (j + n - i.toNat % n) % n) % n
            = (i.toNat + (j + n - i.toNat % n)) % n := by
          simp [Nat.add_mod]
        rw [hmm, hkey]
        exact hjne
      have hex : ∃ t, ws.getD ((i.toNat + t) % n) 0 ≠ 0 := ⟨_, hwit⟩
      have hg_elig : ws.getD ((i.toNat + Nat.find hex) % n) 0 ≠ 0 :=
        Nat.find_spec hex
      have hg_min : ∀ t, t < Nat.find hex → ws.getD ((i.toNat + t) % n) 0 = 0 := by
        intro t ht
        have := Nat.find_min hex ht
        simpa using this
      have hg_lt : Nat.find hex < n :=
        lt_of_le_of_lt (Nat.find_min' hex hwit) (Nat.mod_lt _ hn)
      have hmul : n * (k + 1) = n * k + n := by ring
      rw [hmul] at hfuel
      have hbud' : (i : ℤ) + (n * k : ℕ) + n + 1 ≤ 2 ^ 63 := by
        have hc : ((n * (k + 1) : ℕ) : ℤ) = ((n * k : ℕ) : ℤ) + (n : ℤ) := by
          push_cast
          ring
        rw [hc] at hbud
        omega
      have hfe : fuel = (fuel - (Nat.find hex + 1)) + (Nat.find hex + 1) := by
        omega
      have hadvbud : i + (Nat.find hex : ℤ) + 1 < 2 ^ 63 := by
        have hgn : (Nat.find hex : ℤ) + 1 ≤ (n : ℤ) := by exact_mod_cast hg_lt
        have hnk : (0 : ℤ) ≤ ((n * k : ℕ) : ℤ) := Int.natCast_nonneg _
        omega
      rw [hfe, shareLoop_advance ws n d hn (Nat.find hex) _ i alloc rem h0 hi0
        hadvbud hg_min hg_elig]
      have hidxlt : (i.toNat + Nat.find hex) % n < alloc.length := by
        rw [hlen]
        exact Nat.mod_lt _ hn
      have holdmem : alloc.getD ((i.toNat + Nat.find hex) % n) 0 ∈ alloc := by
        rw [List.getD_eq_getElem alloc 0 hidxlt]
        exact List.getElem_mem _
      have hold := hbound _ holdmem
      have hd1 : d = 1 ∨ d = -1 := by
        rcases hsign with ⟨hd, _⟩ | ⟨hd, _⟩ <;> omega
      have hwr : wrap64 (alloc.getD ((i.toNat + Nat.find hex) % n) 0 + d) =
          alloc.getD ((i.toNat + Nat.find hex) % n) 0 + d := by
        rcases hd1 with rfl | rfl <;> apply wrap64_eq_self <;> omega
      have hrem' : wrap64 (rem - d) = rem - d := by
        rcases hsign with ⟨hd, hge⟩ | ⟨hd, hle⟩ <;> subst hd <;>
          apply wrap64_eq_self <;> omega
      rw [hwr, hrem']
      have hsign' : (d = 1 ∧ 0 ≤ rem - d) ∨ (d = -1 ∧ rem - d ≤ 0) := by
        rcases hsign with ⟨hd, hge⟩ | ⟨hd, hle⟩
        · left
          subst hd
          exact ⟨rfl, by omega⟩
        · right
          subst hd
          exact ⟨rfl, by omega⟩
      have habs' : (rem - d).natAbs ≤ k := by
        rcases hsign with ⟨hd, hge⟩ | ⟨hd, hle⟩ <;> subst hd <;> omega
      have hbound' : ∀ m ∈ alloc.set ((i.toNat + Nat.find hex) % n)
          (alloc.getD ((i.toNat + Nat.find hex) % n) 0 + d),
          m.natAbs + k < 2 ^ 63 := by
        intro m hm
        rcases List.mem_or_eq_of_mem_set hm with hmem | rfl
        · have := hbound m hmem
          omega
        · rcases hd1 with rfl | rfl <;> omega
      have hlen' : (alloc.set ((i.toNat + Nat.find hex) % n)
          (alloc.getD ((i.toNat + Nat.find hex) % n) 0 + d)).length = n := by
        simpa using hlen
      have hbud'' : i + (Nat.find hex : ℤ) + 1 + ((n * k : ℕ) : ℤ) + 1 ≤ 2 ^ 63 := by
        have hgn : (Nat.find hex : ℤ) + 1 ≤ (n : ℤ) := by exact_mod_cast hg_lt
        omega
      obtain ⟨alloc', hok, hsum', hlen''⟩ := ih (fuel - (Nat.find hex + 1))
        (i + (Nat.find hex : ℤ) + 1) _ (rem - d) ⟨j, hj, hjne⟩ hsign' habs'
        (by omega) (by omega) hbud'' hlen' hbound'
      refine ⟨alloc', hok, ?_, hlen''⟩
      rw [hsum', sum_set_getD _ _ _ hidxlt]
      ring

/-- Whenever the loop exits normally it does so with remainder 0,
preserving `sum + rem` modulo `2^64` (each slice write gains the `d`
the remainder loses) and the slice length — with no assumptions on the
counter, so this holds for every run that reaches the check. -/
theorem shareLoop_ok_spec (ws : List ℕ) (n : ℕ) (d : ℤ) :
    ∀ (fuel : ℕ) (i : ℤ) (alloc : List ℤ) (rem : ℤ) (res : List ℤ)
      (rfin : ℤ), alloc.length = n →
    shareLoop ws n d fuel i alloc rem = .ok res rfin →
    rfin = 0 ∧ (res.sum + rfin) % 2 ^ 64 = (alloc.sum + rem) % 2 ^ 64 ∧
      res.length = n := by
  intro fuel
  induction fuel with
  | zero =>
    intro i alloc rem res rfin _ h
    rw [shareLoop_zero_fuel] at h
    exact (LoopResult.noConfusion h)
  | succ fuel ih =>
    intro i alloc rem res rfin hlen h
    rw [shareLoop_succ_eq] at h
    by_cases h0 : rem = 0
    · rw [if_pos h0] at h
      injection h with h1 h2
      subst h1
      subst h2
      exact ⟨h0, rfl, hlen⟩
    · rw [if_neg h0] at h
      by_cases hf : n = 0 ∨ goRem i n < 0
      · rw [if_pos hf] at h
        exact (LoopResult.noConfusion h)
      · rw [if_neg hf] at h
        push_neg at hf
        by_cases hw : ws.getD (goRem i n).toNat 0 = 0
        · rw [if_pos hw] at h
          exact ih _ _ _ _ _ hlen h
        · rw [if_neg hw] at h
          have hn : 0 < n := by omega
          have hind : (goRem i n).toNat < alloc.length := by
            rw [hlen]
            exact goRem_toNat_lt i n hn
          obtain ⟨hr0, hmod, hlen'⟩ := ih _ _ _ _ _ (by simpa using hlen) h
          refine ⟨hr0, ?_, hlen'⟩
          rw [hmod, sum_set_getD _ _ _ hind]
          have e1 := wrap64_emod (alloc.getD (goRem i n).toNat 0 + d)
          have e2 := wrap64_emod (rem - d)
          omega

theorem usedWeights_eligible (ws : List ℕ) (h : ws ≠ []) :
    ∃ j, j < ws.length ∧ (usedWeights ws).getD j 0 ≠ 0 := by
  have hlen : 0 < ws.length := List.length_pos.mpr h
  unfold usedWeights
  by_cases hs : sumWrapU ws = 0
  · rw [if_pos hs]
    refine ⟨0, hlen, ?_⟩
    rcases hl : ws.length with _ | m
    · omega
    · simp [List.replicate]
  · rw [if_neg hs]
    by_contra hall
    push_neg at hall
    apply hs
    rw [sumWrapU_eq]
    have hz : ∀ w ∈ ws, w = 0 := by
      intro w hw
      obtain ⟨⟨j, hj⟩, rfl⟩ := List.mem_iff_get.mp hw
      have := hall j hj
      rw [List.getD_eq_getElem _ _ hj] at this
      simpa using this
    rw [List.sum_eq_zero hz]
    rfl

theorem shareResult_eq (x : Money) (ws : List ℕ) :
    shareResult x ws = shareLoop (usedWeights ws) ws.length
      (if initialRem x.a ws < 0 then -1 else 1) (shareFuel ws.length) 0
      (initialAllocations x.a ws) (initialRem x.a ws) := rfl

/-- Sharing 2 atoms over `[0, 2^64 - 4, 8]`: from any slice contents,
remainder `2^63 - 2` and counter `2^63 - 2 - 3c` (one skip at the
multiple of 3, then two eligible visits per cycle), the loop reaches
counter `2^63 - 1` with the remainder still positive, wraps to `-2^63`,
and faults on the negative index `-2^63 % 3 = -2`. -/
theorem shareLoop_fault_cycles :
    ∀ c : ℕ, c ≤ 3074457345618258602 →
    ∀ (alloc : List ℤ) (fuel : ℕ), 3 * c + 3 ≤ fuel →
    shareLoop [0, 2 ^ 64 - 4, 8] 3 1 fuel (2 ^ 63 - 2 - 3 * (c : ℤ)) alloc
      (3074457345618258602 + 2 * (c : ℤ)) = .fault := by
  intro c
  induction c with
  | zero =>
    intro _ alloc fuel hfuel
    obtain ⟨f, rfl⟩ : ∃ f, fuel = f + 3 := ⟨fuel - 3, by omega⟩
    rw [show (2 ^ 63 - 2 - 3 * ((0 : ℕ) : ℤ)) = 2 ^ 63 - 2 by norm_num,
      show ((3074457345618258602 : ℤ) + 2 * ((0 : ℕ) : ℤ))
        = 3074457345618258602 by norm_num]
    have h0a : (3074457345618258602 : ℤ) ≠ 0 := by norm_num
    have hva : ¬((3 : ℕ) = 0 ∨ goRem (2 ^ 63 - 2) 3 < 0) := by decide
    have hwa : [0, 2 ^ 64 - 4, 8].getD (goRem (2 ^ 63 - 2 : ℤ) 3).toNat 0
        = 0 := by decide
    rw [show f + 3 = (f + 2) + 1 from rfl,
      shareLoop_step_skip _ _ _ _ _ _ _ h0a hva hwa,
      show wrap64 (2 ^ 63 - 2 + 1) = 2 ^ 63 - 1 from by decide]
    have hvb : ¬((3 : ℕ) = 0 ∨ goRem (2 ^ 63 - 1) 3 < 0) := by decide
    have hwb : [0, 2 ^ 64 - 4, 8].getD (goRem (2 ^ 63 - 1 : ℤ) 3).toNat 0
        ≠ 0 := by decide
    rw [show f + 2 = (f + 1) + 1 from rfl,
      shareLoop_step_hit _ _ _ _ _ _ _ h0a hvb hwb,
      show wrap64 (2 ^ 63 - 1 + 1) = -2 ^ 63 from by decide,
      show wrap64 ((3074457345618258602 : ℤ) - 1) = 3074457345618258601
        from by decide]
    have h0c : (3074457345618258601 : ℤ) ≠ 0 := by norm_num
    have hvc : (3 : ℕ) = 0 ∨ goRem (-2 ^ 63) 3 < 0 := by decide
    rw [shareLoop_step_fault _ _ _ _ _ _ _ h0c hvc]
  | succ c ih =>
    intro hc alloc fuel hfuel
    obtain ⟨f, rfl⟩ : ∃ f, fuel = f + 3 := ⟨fuel - 3, by omega⟩
    have hcz : (c : ℤ) ≤ 3074457345618258601 := by
      have : c ≤ 3074457345618258601 := by omega
      exact_mod_cast this
    rw [show (2 ^ 63 - 2 - 3 * ((c + 1 : ℕ) : ℤ))
        = 2 ^ 63 - 5 - 3 * (c : ℤ) by push_cast; ring,
      show ((3074457345618258602 : ℤ) + 2 * ((c + 1 : ℕ) : ℤ))
        = 3074457345618258604 + 2 * (c : ℤ) by push_cast; ring]
    have hI0 : (0 : ℤ) ≤ 2 ^ 63 - 5 - 3 * (c : ℤ) := by omega
    have h0a : (3074457345618258604 : ℤ) + 2 * (c : ℤ) ≠ 0 := by omega
    have hva : ¬((3 : ℕ) = 0 ∨ goRem (2 ^ 63 - 5 - 3 * (c : ℤ)) 3 < 0) := by
      push_neg
      exact ⟨by norm_num, goRem_nonneg _ _ hI0⟩
    have hwa : [0, 2 ^ 64 - 4, 8].getD
        (goRem (2 ^ 63 - 5 - 3 * (c : ℤ)) 3).toNat 0 = 0 := by
      have hm : (2 ^ 63 - 5 - 3 * (c : ℤ)).toNat % 3 = 0 := by omega
      rw [goRem_toNat_of_nonneg _ _ hI0, hm]
      rfl
    rw [show f + 3 = (f + 2) + 1 from rfl,
      shareLoop_step_skip _ _ _ _ _ _ _ h0a hva hwa,
      wrap64_eq_self (show -2 ^ 63 ≤ 2 ^ 63 - 5 - 3 * (c : ℤ) + 1 by omega)
        (show 2 ^ 63 - 5 - 3 * (c : ℤ) + 1 < 2 ^ 63 by omega)]
    have hI1 : (0 : ℤ) ≤ 2 ^ 63 - 5 - 3 * (c : ℤ) + 1 := by omega
    have hvb : ¬((3 : ℕ) = 0 ∨
        goRem (2 ^ 63 - 5 - 3 * (c : ℤ) + 1) 3 < 0) := by
      push_neg
      exact ⟨by norm_num, goRem_nonneg _ _ hI1⟩
    have hwb : [0, 2 ^ 64 - 4, 8].getD
        (goRem (2 ^ 63 - 5 - 3 * (c : ℤ) + 1) 3).toNat 0 ≠ 0 := by
      have hm : (2 ^ 63 - 5 - 3 * (c : ℤ) + 1).toNat % 3 = 1 := by omega
      rw [goRem_toNat_of_nonneg _ _ hI1, hm]
      norm_num
    rw [show f + 2 = (f + 1) + 1 from rfl,
      shareLoop_step_hit _ _ _ _ _ _ _ h0a hvb hwb,
      wrap64_eq_self (show -2 ^ 63 ≤ 2 ^ 63 - 5 - 3 * (c : ℤ) + 1 + 1 by omega)
        (show 2 ^ 63 - 5 - 3 * (c : ℤ) + 1 + 1 < 2 ^ 63 by omega),
      wrap64_eq_self
        (show -2 ^ 63 ≤ 3074457345618258604 + 2 * (c : ℤ) - 1 by omega)
        (show 3074457345618258604 + 2 * (c : ℤ) - 1 < 2 ^ 63 by omega)]
    have hI2 : (0 : ℤ) ≤ 2 ^ 63 - 5 - 3 * (c : ℤ) + 1 + 1 := by omega
    have h0c : (3074457345618258604 : ℤ) + 2 * (c : ℤ) - 1 ≠ 0 := by omega
    have hvc : ¬((3 : ℕ) = 0 ∨
        goRem (2 ^ 63 - 5 - 3 * (c : ℤ) + 1 + 1) 3 < 0) := by
      push_neg
      exact ⟨by norm_num, goRem_nonneg _ _ hI2⟩
    have hwc : [0, 2 ^ 64 - 4, 8].getD
        (goRem (2 ^ 63 - 5 - 3 * (c : ℤ) + 1 + 1) 3).toNat 0 ≠ 0 := by
      have hm : (2 ^ 63 - 5 - 3 * (c : ℤ) + 1 + 1).toNat % 3 = 2 := by omega
      rw [goRem_toNat_of_nonneg _ _ hI2, hm]
      norm_num
    rw [shareLoop_step_hit _ _ _ _ _ _ _ h0c hvc hwc,
      wrap64_eq_self
        (show -2 ^ 63 ≤ 2 ^ 63 - 5 - 3 * (c : ℤ) + 1 + 1 + 1 by omega)
        (show 2 ^ 63 - 5 - 3 * (c : ℤ) + 1 + 1 + 1 < 2 ^ 63 by omega),
      wrap64_eq_self
        (show -2 ^ 63 ≤ 3074457345618258604 + 2 * (c : ℤ) - 1 - 1 by omega)
        (show 3074457345618258604 + 2 * (c : ℤ) - 1 - 1 < 2 ^ 63 by omega),
      show 2 ^ 63 - 5 - 3 * (c : ℤ) + 1 + 1 + 1 = 2 ^ 63 - 2 - 3 * (c : ℤ)
        by ring,
      show (3074457345618258604 : ℤ) + 2 * (c : ℤ) - 1 - 1
        = 3074457345618258602 + 2 * (c : ℤ) by ring]
    exact ih (by omega) _ f (by omega)

theorem shareLoop_fault_full (alloc : List ℤ) (fuel : ℕ)
    (hfuel : 2 ^ 63 + 1 ≤ fuel) :
    shareLoop [0, 2 ^ 64 - 4, 8] 3 1 fuel 0 alloc (2 ^ 63 - 2) = .fault := by
  have h := shareLoop_fault_cycles 3074457345618258602 (le_refl _) alloc fuel
    (by omega)
  rw [show (2 ^ 63 - 2 - 3 * ((3074457345618258602 : ℕ) : ℤ)) = 0 by
      push_cast,
    show ((3074457345618258602 : ℤ) + 2 * ((3074457345618258602 : ℕ) : ℤ))
      = 2 ^ 63 - 2 by push_cast] at h
  exact h

/-! ## Supporting lemmas: the parser -/

theorem takeWhile_append_all (p : Char → Bool) :
    ∀ (l1 l2 : List Char), (∀ c ∈ l1, p c) →
      (l1 ++ l2).takeWhile p = l1 ++ l2.takeWhile p := by
  intro l1
  induction l1 with
  | nil => simp
  | cons a t ih =>
    intro l2 h
    have ha : p a := h a (by simp)
    simp only [List.cons_append, List.takeWhile_cons, ha, if_true]
    rw [ih l2 (fun c hc => h c (by simp [hc]))]

theorem dropWhile_append_all (p : Char → Bool) :
    ∀ (l1 l2 : List Char), (∀ c ∈ l1, p c) →
      (l1 ++ l2).dropWhile p = l2.dropWhile p := by
  intro l1
  induction l1 with
  | nil => simp
  | cons a t ih =>
    intro l2 h
    have ha : p a := h a (by simp)
    simp only [List.cons_append, List.dropWhile_cons, ha, if_true]
    exact ih l2 (fun c hc => h c (by simp [hc]))

theorem digitsVal_foldl (l : List Char) : ∀ a : ℕ,
    l.foldl (fun a c => a * 10 + digitVal c) a =
      a * 10 ^ l.length + digitsVal l := by
  induction l with
  | nil => intro a; simp [digitsVal]
  | cons c t ih =>
    intro a
    have hd : digitsVal (c :: t) =
        t.foldl (fun a c => a * 10 + digitVal c) (digitVal c) := by
      simp [digitsVal]
    simp only [List.foldl_cons, List.length_cons]
    rw [hd, ih (a * 10 + digitVal c), ih (digitVal c)]
    ring

theorem digitsVal_append (l1 l2 : List Char) :
    digitsVal (l1 ++ l2) = digitsVal l1 * 10 ^ l2.length + digitsVal l2 := by
  unfold digitsVal
  rw [List.foldl_append]
  exact digitsVal_foldl l2 _

theorem matchCore_eq (b : Bool) (r : List Char) :
    matchCore b r =
      (if (r.takeWhile Char.isDigit).isEmpty then none
       else match r.dropWhile Char.isDigit with
         | [] => some (b, r.takeWhile Char.isDigit, [])
         | [c, d1, d2] =>
           if c = '.' && d1.isDigit && d2.isDigit
             then some (b, r.takeWhile Char.isDigit, [d1, d2])
           else none
         | _ => none) := rfl

theorem matchAmount_sound {s : List Char} {neg : Bool} {ds frac : List Char}
    (h : matchAmount s = some (neg, ds, frac)) :
    ds ≠ [] ∧ (∀ c ∈ ds, c.isDigit) ∧
    ((frac = [] ∧ s = (if neg then ['-'] else []) ++ ds) ∨
      ∃ d1 d2, frac = [d1, d2] ∧ d1.isDigit ∧ d2.isDigit ∧
        s = (if neg then ['-'] else []) ++ (ds ++ ['.', d1, d2])) := by
  have main : ∀ (b : Bool) (r : List Char),
      (if (r.takeWhile Char.isDigit).isEmpty then none
       else match r.dropWhile Char.isDigit with
         | [] => some (b, r.takeWhile Char.isDigit, [])
         | [c, d1, d2] =>
           if c = '.' && d1.isDigit && d2.isDigit
             then some (b, r.takeWhile Char.isDigit, [d1, d2])
           else none
         | _ => none) = some (neg, ds, frac) →
      b = neg ∧ ds ≠ [] ∧ (∀ c ∈ ds, c.isDigit) ∧
      ((frac = [] ∧ r = ds) ∨
        ∃ d1 d2, frac = [d1, d2] ∧ d1.isDigit ∧ d2.isDigit ∧
          r = ds ++ ['.', d1, d2]) := by
    intro b r hr
    by_cases he : (r.takeWhile Char.isDigit).isEmpty
    · rw [if_pos he] at hr; exact absurd hr (by simp)
    · rw [if_neg he] at hr
      have hsplit := List.takeWhile_append_dropWhile (p := Char.isDigit) (l := r)
      rcases hrest : r.dropWhile Char.isDigit with _ | ⟨c, r2⟩
      · rw [hrest] at hr
        obtain ⟨h1, h2, h3⟩ : b = neg ∧ r.takeWhile Char.isDigit = ds ∧
            ([] : List Char) = frac := by simpa using hr
        refine ⟨h1, ?_, ?_, Or.inl ⟨h3.symm, ?_⟩⟩
        · rw [← h2]
          simpa [List.isEmpty_iff] using he
        · intro cc hcc
          exact List.mem_takeWhile_imp (h2 ▸ hcc)
        · rw [← hsplit, hrest, h2, List.append_nil]
      · rcases r2 with _ | ⟨d1, r3⟩
        · rw [hrest] at hr; exact absurd hr (by simp)
        · rcases r3 with _ | ⟨d2, r4⟩
          · rw [hrest] at hr; exact absurd hr (by simp)
          · rcases r4 with _ | ⟨c5, r5⟩
            · rw [hrest] at hr
              replace hr : (if c = '.' && d1.isDigit && d2.isDigit
                  then some (b, r.takeWhile Char.isDigit, [d1, d2])
                  else none) = some (neg, ds, frac) := hr
              by_cases hd : c = '.' && d1.isDigit && d2.isDigit
              · rw [if_pos hd] at hr
                obtain ⟨h1, h2, h3⟩ : b = neg ∧ r.takeWhile Char.isDigit = ds ∧
                    [d1, d2] = frac := by simpa using hr
                simp only [Bool.and_eq_true, decide_eq_true_eq] at hd
                obtain ⟨⟨hdot, hd1⟩, hd2⟩ := hd
                refine ⟨h1, ?_, ?_, Or.inr ⟨d1, d2, h3.symm, hd1, hd2, ?_⟩⟩
                · rw [← h2]
                  simpa [List.isEmpty_iff] using he
                · intro cc hcc
                  exact List.mem_takeWhile_imp (h2 ▸ hcc)
                · rw [← hsplit, hrest, h2, hdot]
              · rw [if_neg hd] at hr; exact absurd hr (by simp)
            · rw [hrest] at hr; exact absurd hr (by simp)
  rcases s with _ | ⟨c, r⟩
  · exact absurd h (by simp [matchAmount, matchCore])
  · by_cases hc : c = '-'
    · subst hc
      have hm : matchAmount ('-' :: r) = matchCore true r := by
        show (if ('-' : Char) = '-' then matchCore true r
          else matchCore false ('-' :: r)) = matchCore true r
        rw [if_pos rfl]
      rw [hm, matchCore_eq] at h
      obtain ⟨h1, h2, h3, h4⟩ := main true r h
      rcases h4 with ⟨hf, hrr⟩ | ⟨d1, d2, hf, hd1, hd2, hrr⟩
      · refine ⟨h2, h3, Or.inl ⟨hf, ?_⟩⟩
        rw [← h1, hrr]; rfl
      · refine ⟨h2, h3, Or.inr ⟨d1, d2, hf, hd1, hd2, ?_⟩⟩
        rw [← h1, hrr]; rfl
    · have hm : matchAmount (c :: r) = matchCore false (c :: r) := by
        show (if c = '-' then matchCore true r
          else matchCore false (c :: r)) = matchCore false (c :: r)
        rw [if_neg hc]
      rw [hm, matchCore_eq] at h
      obtain ⟨h1, h2, h3, h4⟩ := main false (c :: r) h
      rcases h4 with ⟨hf, hrr⟩ | ⟨d1, d2, hf, hd1, hd2, hrr⟩
      · refine ⟨h2, h3, Or.inl ⟨hf, ?_⟩⟩
        rw [← h1, hrr]; rfl
      · refine ⟨h2, h3, Or.inr ⟨d1, d2, hf, hd1, hd2, ?_⟩⟩
        rw [← h1, hrr]; rfl

theorem matchAmount_complete (neg : Bool) (ds fs frac : List Char)
    (hds : ds ≠ []) (hdig : ∀ c ∈ ds, c.isDigit)
    (hfs : fs = [] ∧ frac = [] ∨
      ∃ d1 d2, fs = ['.', d1, d2] ∧ frac = [d1, d2] ∧ d1.isDigit ∧ d2.isDigit) :
    matchAmount ((if neg then ['-'] else []) ++ ds ++ fs) =
      some (neg, ds, frac) := by
  have hdot : Char.isDigit '.' = false := by decide
  have hfsd : fs.takeWhile Char.isDigit = [] ∧ fs.dropWhile Char.isDigit = fs := by
    rcases hfs with ⟨rfl, _⟩ | ⟨d1, d2, rfl, _, _, _⟩
    · exact ⟨rfl, rfl⟩
    · exact ⟨by simp [List.takeWhile_cons, hdot],
        by simp [List.dropWhile_cons, hdot]⟩
  have hcore : matchCore neg (ds ++ fs) = some (neg, ds, frac) := by
    have htake : (ds ++ fs).takeWhile Char.isDigit = ds := by
      rw [takeWhile_append_all _ ds fs hdig, hfsd.1, List.append_nil]
    have hdrop : (ds ++ fs).dropWhile Char.isDigit = fs := by
      rw [dropWhile_append_all _ ds fs hdig, hfsd.2]
    rw [matchCore_eq, htake, hdrop, if_neg (by simpa [List.isEmpty_iff] using hds)]
    rcases hfs with ⟨rfl, rfl⟩ | ⟨d1, d2, rfl, rfl, h1, h2⟩
    · rfl
    · show (if ('.' : Char) = '.' && d1.isDigit && d2.isDigit
          then some (neg, ds, [d1, d2]) else none) = some (neg, ds, [d1, d2])
      rw [if_pos (by simp [h1, h2])]
  cases neg
  · rcases ds with _ | ⟨c, dt⟩
    · exact absurd rfl hds
    · have hcd : c.isDigit := hdig c (by simp)
      have hcne : c ≠ '-' := by
        intro he
        rw [he] at hcd
        exact absurd hcd (by decide)
      show (if c = '-' then matchCore true (dt ++ fs)
        else matchCore false (c :: (dt ++ fs))) = some (false, c :: dt, frac)
      rw [if_neg hcne]
      exact hcore
  · show (if ('-' : Char) = '-' then matchCore true (ds ++ fs)
      else matchCore false ('-' :: (ds ++ fs))) = some (true, ds, frac)
    rw [if_pos rfl]
    exact hcore

theorem strToInt_eq (s : List Char) :
    strToInt s = match matchAmount s with
      | none => none
      | some (neg, ds, fs) =>
        if digitsVal (ds ++ fs) ≤ maxInt64
          then some (if neg then -(digitsVal (ds ++ fs) : ℤ)
            else (digitsVal (ds ++ fs) : ℤ))
          else none := rfl

/-! ## Supporting lemmas: binary64 value brackets

The conservation proof for `Share` only needs coarse (factor-of-two)
bounds on the rounded values, which follow from the binade selection in
`roundPos` and the floor/ceiling envelope of `rne`. -/

theorem bitsAux_zero (f : ℕ) : bitsAux f 0 = 0 := by
  cases f <;> rfl

theorem bitsAux_succ (f n : ℕ) :
    bitsAux (f + 1) n = if n = 0 then 0 else bitsAux f (n / 2) + 1 := rfl

theorem bitsAux_correct : ∀ (fuel n : ℕ), n ≤ fuel → n ≠ 0 →
    2 ^ (bitsAux fuel n - 1) ≤ n ∧ n < 2 ^ bitsAux fuel n ∧
      1 ≤ bitsAux fuel n := by
  intro fuel
  induction fuel with
  | zero => intro n h1 h2; omega
  | succ f ih =>
    intro n h1 h2
    rw [bitsAux_succ, if_neg h2]
    by_cases hh : n / 2 = 0
    · have hn1 : n = 1 := by omega
      subst hn1
      norm_num [bitsAux_zero]
    · obtain ⟨hle, hlt, h1b⟩ := ih (n / 2) (by omega) hh
      have hp : (2 : ℕ) ^ bitsAux f (n / 2) =
          2 * 2 ^ (bitsAux f (n / 2) - 1) := by
        conv_lhs => rw [show bitsAux f (n / 2) = (bitsAux f (n / 2) - 1) + 1
          by omega]
        ring
      have hp2 : (2 : ℕ) ^ (bitsAux f (n / 2) + 1) =
          2 * 2 ^ bitsAux f (n / 2) := by ring
      refine ⟨?_, by omega, by omega⟩
      simp only [Nat.add_sub_cancel]
      omega

theorem bits_correct (n : ℕ) (h : n ≠ 0) :
    2 ^ (bits n - 1) ≤ n ∧ n < 2 ^ bits n ∧ 1 ≤ bits n :=
  bitsAux_correct n n (le_refl n) h

theorem rne_cases (num den : ℕ) :
    rne num den = num / den ∨ rne num den = num / den + 1 := by
  unfold rne
  by_cases h1 : 2 * (num % den) < den
  · rw [if_pos h1]; exact Or.inl rfl
  · rw [if_neg h1]
    by_cases h2 : den < 2 * (num % den)
    · rw [if_pos h2]; exact Or.inr rfl
    · rw [if_neg h2]
      by_cases h3 : num / den % 2 = 0
      · rw [if_pos h3]; exact Or.inl rfl
      · rw [if_neg h3]; exact Or.inr rfl

/-! ## Supporting lemmas: the binary64 bracket bounds

Factor-of-two envelopes of every float operation in the allocator,
leading to a bound on each initial allocation. -/

theorem rne_envelope (num den : ℕ) (hd : den ≠ 0) (hge : den ≤ num) :
    rne num den * den ≤ 2 * num ∧ num ≤ 2 * (rne num den * den) := by
  have hpos : 0 < den := Nat.pos_of_ne_zero hd
  have hq1 : 1 ≤ num / den := (Nat.one_le_div_iff hpos).mpr hge
  have hdm := Nat.div_add_mod num den
  have hmlt := Nat.mod_lt num hpos
  have hcomm : num / den * den = den * (num / den) := by ring
  have hden_le : den ≤ num / den * den := by
    calc den = 1 * den := (one_mul den).symm
    _ ≤ num / den * den := Nat.mul_le_mul_right den hq1
  have hsucc : (num / den + 1) * den = num / den * den + den := by ring
  rcases rne_cases num den with h | h <;> rw [h] <;> constructor <;> omega

theorem bracket_core (num den : ℕ) (hn : num ≠ 0) (hd : den ≠ 0) (g : ℤ)
    (m : ℕ)
    (hm : m = (if 0 ≤ g then rne num (den * 2 ^ g.toNat)
               else rne (num * 2 ^ (-g).toNat) den))
    (hQ1 : if 0 ≤ g then den * 2 ^ g.toNat ≤ num
           else den ≤ num * 2 ^ (-g).toNat) :
    (num : ℚ) / den ≤ 2 * ((m : ℚ) * (2 : ℚ) ^ g) ∧
    (m : ℚ) * (2 : ℚ) ^ g ≤ 2 * ((num : ℚ) / den) := by
  have hdq : (0 : ℚ) < (den : ℚ) := by
    have := Nat.pos_of_ne_zero hd
    exact_mod_cast this
  by_cases hg : 0 ≤ g
  · rw [if_pos hg] at hm hQ1
    set t := g.toNat with ht
    have hzg : (2 : ℚ) ^ g = ((2 ^ t : ℕ) : ℚ) := by
      rw [show g = (t : ℤ) by omega]
      push_cast
      rw [zpow_natCast]
    have hD : den * 2 ^ t ≠ 0 := by positivity
    obtain ⟨he1, he2⟩ := rne_envelope num (den * 2 ^ t) hD hQ1
    rw [← hm] at he1 he2
    constructor
    · rw [div_le_iff₀ hdq, hzg]
      have h2 : (num : ℚ) ≤ 2 * (m * (den * 2 ^ t)) := by exact_mod_cast he2
      push_cast at h2 ⊢
      nlinarith [h2]
    · rw [show (2:ℚ) * ((num:ℚ)/(den:ℚ)) = (2 * num) / den by ring,
        le_div_iff₀ hdq, hzg]
      have h1 : ((m * (den * 2 ^ t) : ℕ) : ℚ) ≤ ((2 * num : ℕ) : ℚ) := by
        exact_mod_cast he1
      push_cast at h1 ⊢
      nlinarith [h1]
  · rw [if_neg hg] at hm hQ1
    set t := (-g).toNat with ht
    have hzg : (2 : ℚ) ^ g = (((2 ^ t : ℕ) : ℚ))⁻¹ := by
      rw [show g = -(t : ℤ) by omega, zpow_neg]
      congr 1
      push_cast
      rw [zpow_natCast]
    have hN : num * 2 ^ t ≠ 0 := by positivity
    obtain ⟨he1, he2⟩ := rne_envelope (num * 2 ^ t) den hd hQ1
    rw [← hm] at he1 he2
    have h2t : (0 : ℚ) < ((2 ^ t : ℕ) : ℚ) := by positivity
    constructor
    · rw [div_le_iff₀ hdq, hzg,
        show (2:ℚ) * ((m:ℚ) * (((2 ^ t : ℕ):ℚ))⁻¹) * (den:ℚ)
          = (2 * m * den) / ((2 ^ t : ℕ):ℚ) from by field_simp,
        le_div_iff₀ h2t]
      have h2 : ((num * 2 ^ t : ℕ) : ℚ) ≤ 2 * (m * den) := by exact_mod_cast he2
      push_cast at h2 ⊢
      nlinarith [h2]
    · rw [hzg,
        show ((m:ℚ) * (((2 ^ t : ℕ):ℚ))⁻¹) = (m:ℚ) / ((2 ^ t : ℕ):ℚ) from by ring,
        show (2:ℚ) * ((num:ℚ)/(den:ℚ)) = (2 * num) / den by ring,
        div_le_div_iff₀ h2t hdq]
      have h1 : ((m * den : ℕ) : ℚ) ≤ 2 * (num * 2 ^ t) := by exact_mod_cast he1
      push_cast at h1 ⊢
      nlinarith [h1]

theorem roundPos_scale_ge (num den : ℕ) (hn : num ≠ 0) (hd : den ≠ 0)
    (g : ℤ)
    (hg : g = (if geScaled num den ((bits num : ℤ) - (bits den : ℤ))
      then (bits num : ℤ) - (bits den : ℤ) - 52
      else (bits num : ℤ) - (bits den : ℤ) - 53)) :
    if 0 ≤ g then den * 2 ^ g.toNat ≤ num
    else den ≤ num * 2 ^ (-g).toNat := by
  obtain ⟨hbn1, hbn2, hbn3⟩ := bits_correct num hn
  obtain ⟨hbd1, hbd2, hbd3⟩ := bits_correct den hd
  set bn := bits num
  set bd := bits den
  by_cases hgs : geScaled num den ((bn : ℤ) - (bd : ℤ)) = true
  · rw [if_pos hgs] at hg
    by_cases hk0 : (0 : ℤ) ≤ (bn : ℤ) - (bd : ℤ)
    · have hfact : 2 ^ ((bn : ℤ) - (bd : ℤ)).toNat * den ≤ num := by
        unfold geScaled at hgs
        rw [if_pos hk0] at hgs
        exact of_decide_eq_true hgs
      by_cases hg0 : 0 ≤ g
      · rw [if_pos hg0]
        have hle : g.toNat ≤ ((bn : ℤ) - (bd : ℤ)).toNat := by omega
        calc den * 2 ^ g.toNat ≤ den * 2 ^ ((bn : ℤ) - (bd : ℤ)).toNat :=
              Nat.mul_le_mul_left den (Nat.pow_le_pow_right (by norm_num) hle)
        _ = 2 ^ ((bn : ℤ) - (bd : ℤ)).toNat * den := by ring
        _ ≤ num := hfact
      · rw [if_neg hg0]
        have h1 : den ≤ 2 ^ ((bn : ℤ) - (bd : ℤ)).toNat * den := by
          have : 1 ≤ 2 ^ ((bn : ℤ) - (bd : ℤ)).toNat := Nat.one_le_two_pow
          calc den = 1 * den := (one_mul den).symm
          _ ≤ _ := Nat.mul_le_mul_right den this
        have h2 : num ≤ num * 2 ^ (-g).toNat := by
          have : 1 ≤ 2 ^ (-g).toNat := Nat.one_le_two_pow
          calc num = num * 1 := (mul_one num).symm
          _ ≤ _ := Nat.mul_le_mul_left num this
        omega
    · have hfact : den ≤ 2 ^ (-((bn : ℤ) - (bd : ℤ))).toNat * num := by
        unfold geScaled at hgs
        rw [if_neg hk0] at hgs
        exact of_decide_eq_true hgs
      have hg0 : ¬0 ≤ g := by omega
      rw [if_neg hg0]
      have hle : (-((bn : ℤ) - (bd : ℤ))).toNat ≤ (-g).toNat := by omega
      calc den ≤ 2 ^ (-((bn : ℤ) - (bd : ℤ))).toNat * num := hfact
      _ ≤ 2 ^ (-g).toNat * num :=
          Nat.mul_le_mul_right num (Nat.pow_le_pow_right (by norm_num) hle)
      _ = num * 2 ^ (-g).toNat := by ring
  · rw [if_neg hgs] at hg
    by_cases hg0 : 0 ≤ g
    · rw [if_pos hg0]
      -- g = bn - bd - 53 ≥ 0: den * 2^g < 2^bd * 2^g = 2^(bd + g) = 2^(bn - 53)
      -- ≤ 2^(bn - 1) ≤ num
      have hexp : bd + g.toNat = bn - 53 ∧ 53 ≤ bn ∧ bn - 53 ≤ bn - 1 := by
        omega
      have h1 : den * 2 ^ g.toNat < 2 ^ bd * 2 ^ g.toNat :=
        (Nat.mul_lt_mul_right (Nat.two_pow_pos _)).mpr hbd2
      have h2 : (2 : ℕ) ^ bd * 2 ^ g.toNat = 2 ^ (bd + g.toNat) :=
        (pow_add 2 bd g.toNat).symm
      have h3 : (2 : ℕ) ^ (bd + g.toNat) ≤ 2 ^ (bn - 1) := by
        apply Nat.pow_le_pow_right (by norm_num)
        omega
      omega
    · rw [if_neg hg0]
      -- g = bn - bd - 53 < 0: den < 2^bd ≤ 2^(bn - 1 + t) = 2^(bn-1) * 2^t
      -- ≤ num * 2^t
      have h3 : (2 : ℕ) ^ bd ≤ 2 ^ ((bn - 1) + (-g).toNat) := by
        apply Nat.pow_le_pow_right (by norm_num)
        omega
      have h2 : (2 : ℕ) ^ ((bn - 1) + (-g).toNat) =
          2 ^ (bn - 1) * 2 ^ (-g).toNat := pow_add 2 (bn - 1) (-g).toNat
      have h1 : (2 : ℕ) ^ (bn - 1) * 2 ^ (-g).toNat ≤ num * 2 ^ (-g).toNat :=
        Nat.mul_le_mul_right _ hbn1
      omega

theorem roundPos_def (num den : ℕ) (hn : num ≠ 0) :
    roundPos num den =
      ((if 0 ≤ (if geScaled num den ((bits num : ℤ) - (bits den : ℤ))
            then (bits num : ℤ) - (bits den : ℤ) - 52
            else (bits num : ℤ) - (bits den : ℤ) - 53)
        then rne num (den *
          2 ^ (if geScaled num den ((bits num : ℤ) - (bits den : ℤ))
            then (bits num : ℤ) - (bits den : ℤ) - 52
            else (bits num : ℤ) - (bits den : ℤ) - 53).toNat)
        else rne (num *
          2 ^ (-(if geScaled num den ((bits num : ℤ) - (bits den : ℤ))
            then (bits num : ℤ) - (bits den : ℤ) - 52
            else (bits num : ℤ) - (bits den : ℤ) - 53)).toNat) den),
       (if geScaled num den ((bits num : ℤ) - (bits den : ℤ))
        then (bits num : ℤ) - (bits den : ℤ) - 52
        else (bits num : ℤ) - (bits den : ℤ) - 53)) := by
  unfold roundPos
  rw [if_neg hn]

theorem roundPos_bracket (num den : ℕ) (hn : num ≠ 0) (hd : den ≠ 0) :
    (num : ℚ) / den ≤
      2 * (((roundPos num den).1 : ℚ) * (2 : ℚ) ^ (roundPos num den).2) ∧
    ((roundPos num den).1 : ℚ) * (2 : ℚ) ^ (roundPos num den).2 ≤
      2 * ((num : ℚ) / den) := by
  rw [roundPos_def num den hn]
  exact bracket_core num den hn hd _ _ rfl
    (roundPos_scale_ge num den hn hd _ rfl)

theorem roundPos_zero_num (den : ℕ) : roundPos 0 den = (0, 0) := by
  unfold roundPos
  rw [if_pos rfl]

theorem two_zpow_pos (e : ℤ) : (0 : ℚ) < (2 : ℚ) ^ e :=
  zpow_pos (by norm_num) e

theorem fVal_abs (x : FP) : |fVal x| = (x.1.natAbs : ℚ) * (2 : ℚ) ^ x.2 := by
  unfold fVal
  rw [abs_mul, abs_of_pos (two_zpow_pos x.2), Int.cast_natAbs, Int.cast_abs]

theorem flOfNat_bracket (w : ℕ) (hw : w ≠ 0) :
    (w : ℚ) ≤ 2 * fVal (flOfNat w) ∧ fVal (flOfNat w) ≤ 2 * w := by
  have hb := roundPos_bracket w 1 hw one_ne_zero
  unfold fVal flOfNat
  constructor
  · have := hb.1
    push_cast at this ⊢
    simpa using this
  · have := hb.2
    push_cast at this ⊢
    simpa using this

theorem flOfNat_nonneg (w : ℕ) : 0 ≤ fVal (flOfNat w) := by
  unfold fVal flOfNat
  positivity

theorem flOfInt_abs_le (a : ℤ) : |fVal (flOfInt a)| ≤ 2 * (a.natAbs : ℚ) := by
  by_cases ha : a = 0
  · subst ha
    show |fVal (if (0:ℤ) < 0 then _ else _, _)| ≤ _
    rw [if_neg (by omega)]
    simp [fVal, roundPos_zero_num, Int.natAbs_zero]
  · have hb := (roundPos_bracket a.natAbs 1 (by simpa using ha) one_ne_zero).2
    rw [fVal_abs]
    have h1 : (flOfInt a).1.natAbs = (roundPos a.natAbs 1).1 := by
      unfold flOfInt
      by_cases hneg : a < 0
      · rw [if_pos hneg]; simp
      · rw [if_neg hneg]; simp
    have h2 : (flOfInt a).2 = (roundPos a.natAbs 1).2 := rfl
    rw [h1, h2]
    simpa using hb

theorem flDiv_abs_le (x y : FP) (hy : y.1 ≠ 0) :
    |fVal (flDiv x y)| ≤ 2 * |fVal x| / |fVal y| := by
  by_cases hx : x.1 = 0
  · have h0 : (flDiv x y).1 = 0 := by
      unfold flDiv
      rw [hx]
      simp [roundPos_zero_num]
    have hL : |fVal (flDiv x y)| = 0 := by
      rw [fVal_abs, h0]
      simp
    have hR : |fVal x| = 0 := by
      rw [fVal_abs, hx]
      simp
    rw [hL, hR]
    simp
  · have hb := (roundPos_bracket x.1.natAbs y.1.natAbs
      (by simpa using hx) (by simpa using hy)).2
    have h1 : (flDiv x y).1.natAbs = (roundPos x.1.natAbs y.1.natAbs).1 := by
      show (if (x.1 < 0) = (y.1 < 0)
        then ((roundPos x.1.natAbs y.1.natAbs).1 : ℤ)
        else -((roundPos x.1.natAbs y.1.natAbs).1 : ℤ)).natAbs = _
      by_cases hs : (x.1 < 0) = (y.1 < 0)
      · rw [if_pos hs]; simp
      · rw [if_neg hs]; simp
    have h2 : (flDiv x y).2 =
        (roundPos x.1.natAbs y.1.natAbs).2 + x.2 - y.2 := rfl
    have hyq : (0 : ℚ) < (y.1.natAbs : ℚ) := by
      have h0 : 0 < y.1.natAbs := Nat.pos_of_ne_zero (by simpa using hy)
      exact_mod_cast h0
    have hx2 := two_zpow_pos x.2
    have hy2 := two_zpow_pos y.2
    have hg2 := two_zpow_pos (roundPos x.1.natAbs y.1.natAbs).2
    have hb' : ((roundPos x.1.natAbs y.1.natAbs).1 : ℚ) *
        (2 : ℚ) ^ (roundPos x.1.natAbs y.1.natAbs).2 * (y.1.natAbs : ℚ)
        ≤ 2 * (x.1.natAbs : ℚ) := by
      rw [show (2 : ℚ) * ((x.1.natAbs : ℚ) / (y.1.natAbs : ℚ))
        = (2 * x.1.natAbs) / y.1.natAbs from by ring] at hb
      have hmul := mul_le_mul_of_nonneg_right hb (le_of_lt hyq)
      rwa [div_mul_cancel₀ _ (ne_of_gt hyq)] at hmul
    rw [fVal_abs, h1, h2, fVal_abs, fVal_abs]
    have hsplit : (2 : ℚ) ^ ((roundPos x.1.natAbs y.1.natAbs).2 + x.2 - y.2)
        = (2 : ℚ) ^ (roundPos x.1.natAbs y.1.natAbs).2 * (2 : ℚ) ^ x.2 /
          (2 : ℚ) ^ y.2 := by
      rw [zpow_sub₀ (by norm_num : (2 : ℚ) ≠ 0),
        zpow_add₀ (by norm_num : (2 : ℚ) ≠ 0)]
    rw [hsplit, le_div_iff₀ (by positivity)]
    have hL : ((roundPos x.1.natAbs y.1.natAbs).1 : ℚ) *
        ((2 : ℚ) ^ (roundPos x.1.natAbs y.1.natAbs).2 * (2 : ℚ) ^ x.2 /
          (2 : ℚ) ^ y.2) * ((y.1.natAbs : ℚ) * (2 : ℚ) ^ y.2) =
        (((roundPos x.1.natAbs y.1.natAbs).1 : ℚ) *
          (2 : ℚ) ^ (roundPos x.1.natAbs y.1.natAbs).2 * (y.1.natAbs : ℚ)) *
          (2 : ℚ) ^ x.2 := by
      field_simp
      ring
    rw [hL]
    calc (((roundPos x.1.natAbs y.1.natAbs).1 : ℚ) *
          (2 : ℚ) ^ (roundPos x.1.natAbs y.1.natAbs).2 * (y.1.natAbs : ℚ)) *
          (2 : ℚ) ^ x.2
        ≤ (2 * (x.1.natAbs : ℚ)) * (2 : ℚ) ^ x.2 :=
          mul_le_mul_of_nonneg_right hb' (le_of_lt hx2)
    _ = 2 * ((x.1.natAbs : ℚ) * (2 : ℚ) ^ x.2) := by ring

theorem flMul_abs_le (x y : FP) :
    |fVal (flMul x y)| ≤ 2 * (|fVal x| * |fVal y|) := by
  by_cases hxy : x.1 * y.1 = 0
  · have h0 : (flMul x y).1 = 0 := by
      show (if (x.1 < 0) = (y.1 < 0)
        then ((roundPos (x.1 * y.1).natAbs 1).1 : ℤ)
        else -((roundPos (x.1 * y.1).natAbs 1).1 : ℤ)) = 0
      rw [hxy]
      simp [roundPos_zero_num]
    rw [fVal_abs, h0]
    have h1 : (0 : ℚ) ≤ 2 * (|fVal x| * |fVal y|) := by positivity
    simpa using h1
  · have hb := (roundPos_bracket (x.1 * y.1).natAbs 1
      (by simpa using hxy) one_ne_zero).2
    have h1 : (flMul x y).1.natAbs = (roundPos (x.1 * y.1).natAbs 1).1 := by
      show (if (x.1 < 0) = (y.1 < 0)
        then ((roundPos (x.1 * y.1).natAbs 1).1 : ℤ)
        else -((roundPos (x.1 * y.1).natAbs 1).1 : ℤ)).natAbs = _
      by_cases hs : (x.1 < 0) = (y.1 < 0)
      · rw [if_pos hs]; simp
      · rw [if_neg hs]; simp
    have h2 : (flMul x y).2 =
        (roundPos (x.1 * y.1).natAbs 1).2 + x.2 + y.2 := rfl
    rw [fVal_abs, h1, h2, fVal_abs, fVal_abs]
    have hsplit : (2 : ℚ) ^ ((roundPos (x.1 * y.1).natAbs 1).2 + x.2 + y.2)
        = (2 : ℚ) ^ (roundPos (x.1 * y.1).natAbs 1).2 * (2 : ℚ) ^ x.2 *
          (2 : ℚ) ^ y.2 := by
      rw [zpow_add₀ (by norm_num : (2 : ℚ) ≠ 0),
        zpow_add₀ (by norm_num : (2 : ℚ) ≠ 0)]
    rw [hsplit]
    have hb' : ((roundPos (x.1 * y.1).natAbs 1).1 : ℚ) *
        (2 : ℚ) ^ (roundPos (x.1 * y.1).natAbs 1).2
        ≤ 2 * ((x.1 * y.1).natAbs : ℚ) := by
      have := hb
      simpa using this
    have hmabs : ((x.1 * y.1).natAbs : ℚ) =
        (x.1.natAbs : ℚ) * (y.1.natAbs : ℚ) := by
      rw [Int.natAbs_mul]
      push_cast
      rfl
    have hx2 := two_zpow_pos x.2
    have hy2 := two_zpow_pos y.2
    calc ((roundPos (x.1 * y.1).natAbs 1).1 : ℚ) *
          ((2 : ℚ) ^ (roundPos (x.1 * y.1).natAbs 1).2 * (2 : ℚ) ^ x.2 *
            (2 : ℚ) ^ y.2)
        = (((roundPos (x.1 * y.1).natAbs 1).1 : ℚ) *
            (2 : ℚ) ^ (roundPos (x.1 * y.1).natAbs 1).2) *
          ((2 : ℚ) ^ x.2 * (2 : ℚ) ^ y.2) := by ring
    _ ≤ (2 * ((x.1 * y.1).natAbs : ℚ)) * ((2 : ℚ) ^ x.2 * (2 : ℚ) ^ y.2) :=
          mul_le_mul_of_nonneg_right hb' (by positivity)
    _ = 2 * ((x.1.natAbs : ℚ) * (2 : ℚ) ^ x.2 *
          ((y.1.natAbs : ℚ) * (2 : ℚ) ^ y.2)) := by
          rw [hmabs]
          ring

theorem truncF_abs_le (x : FP) : |((truncF x : ℤ) : ℚ)| ≤ |fVal x| := by
  unfold truncF
  rw [fVal_abs]
  by_cases he : 0 ≤ x.2
  · rw [if_pos he]
    have hz : (2 : ℚ) ^ x.2 = (2 : ℚ) ^ x.2.toNat := by
      rw [← zpow_natCast (2 : ℚ) x.2.toNat]
      congr 1
      omega
    rw [hz]
    push_cast
    rw [abs_mul, Int.cast_natAbs, Int.cast_abs]
    have h2 : |(2 : ℚ) ^ x.2.toNat| = (2 : ℚ) ^ x.2.toNat := by
      rw [abs_of_pos]
      positivity
    rw [h2]
  · rw [if_neg he]
    have hz : (2 : ℚ) ^ x.2 = ((2 : ℚ) ^ (-x.2).toNat)⁻¹ := by
      rw [← zpow_natCast (2 : ℚ) (-x.2).toNat, ← zpow_neg]
      congr 1
      omega
    rw [hz]
    have hcast : ((x.1.natAbs / 2 ^ (-x.2).toNat : ℕ) : ℚ) ≤
        (x.1.natAbs : ℚ) / ((2 ^ (-x.2).toNat : ℕ) : ℚ) := Nat.cast_div_le
    have hgoal : ((x.1.natAbs / 2 ^ (-x.2).toNat : ℕ) : ℚ) ≤
        (x.1.natAbs : ℚ) * ((2 : ℚ) ^ (-x.2).toNat)⁻¹ := by
      calc ((x.1.natAbs / 2 ^ (-x.2).toNat : ℕ) : ℚ)
          ≤ (x.1.natAbs : ℚ) / ((2 ^ (-x.2).toNat : ℕ) : ℚ) := hcast
      _ = (x.1.natAbs : ℚ) * ((2 : ℚ) ^ (-x.2).toNat)⁻¹ := by
            push_cast
            ring
    by_cases hs : 0 ≤ x.1
    · rw [if_pos hs, Int.cast_natCast, Nat.abs_cast]
      exact hgoal
    · rw [if_neg hs, Int.cast_neg, Int.cast_natCast, abs_neg, Nat.abs_cast]
      exact hgoal

theorem flOfNat_mantissa_ne (s : ℕ) (hs : s ≠ 0) : (flOfNat s).1 ≠ 0 := by
  intro h
  have hb := (flOfNat_bracket s hs).1
  have hz : fVal (flOfNat s) = 0 := by
    unfold fVal
    rw [h]
    simp
  rw [hz] at hb
  have hpos : (0 : ℚ) < (s : ℚ) := by
    have := Nat.pos_of_ne_zero hs
    exact_mod_cast this
  linarith

theorem ratio_abs_le (w s : ℕ) (hs : s ≠ 0) (hws : w ≤ s) :
    |fVal (flDiv (flOfNat w) (flOfNat s))| ≤ 8 := by
  by_cases hw : w = 0
  · have hx : (flOfNat w).1 = 0 := by
      subst hw
      unfold flOfNat
      rw [roundPos_zero_num]
      simp
    have h0 : (flDiv (flOfNat w) (flOfNat s)).1 = 0 := by
      unfold flDiv
      rw [hx]
      simp [roundPos_zero_num]
    rw [fVal_abs, h0]
    norm_num
  · have h1 := flDiv_abs_le (flOfNat w) (flOfNat s) (flOfNat_mantissa_ne s hs)
    have h2 := (flOfNat_bracket w hw).2
    have h3 := (flOfNat_bracket s hs).1
    have h4 := flOfNat_nonneg w
    have h5 := flOfNat_nonneg s
    rw [abs_of_nonneg h4, abs_of_nonneg h5] at h1
    have hspos : (0 : ℚ) < fVal (flOfNat s) := by
      have hq : (0 : ℚ) < (s : ℚ) := by
        have := Nat.pos_of_ne_zero hs
        exact_mod_cast this
      linarith
    have hws' : (w : ℚ) ≤ (s : ℚ) := by exact_mod_cast hws
    have key : 2 * fVal (flOfNat w) / fVal (flOfNat s) ≤ 8 := by
      rw [div_le_iff₀ hspos]
      nlinarith [h2, h3, hws']
    linarith

theorem allocation_trunc_bound (a : ℤ) (w s : ℕ) (hs : s ≠ 0) (hws : w ≤ s) :
    ((truncF (flMul (flDiv (flOfNat w) (flOfNat s)) (flOfInt a))).natAbs : ℚ)
      ≤ 32 * (a.natAbs : ℚ) := by
  have h1 := truncF_abs_le (flMul (flDiv (flOfNat w) (flOfNat s)) (flOfInt a))
  have h2 := flMul_abs_le (flDiv (flOfNat w) (flOfNat s)) (flOfInt a)
  have h3 := ratio_abs_le w s hs hws
  have h4 := flOfInt_abs_le a
  have hc1 : ((truncF (flMul (flDiv (flOfNat w) (flOfNat s))
      (flOfInt a))).natAbs : ℚ) =
      |((truncF (flMul (flDiv (flOfNat w) (flOfNat s)) (flOfInt a)) : ℤ) : ℚ)| := by
    rw [Int.cast_natAbs, Int.cast_abs]
  have hc2 : (a.natAbs : ℚ) = |((a : ℤ) : ℚ)| := by
    rw [Int.cast_natAbs, Int.cast_abs]
  rw [hc1, hc2]
  have hnn1 : (0 : ℚ) ≤ |fVal (flDiv (flOfNat w) (flOfNat s))| := abs_nonneg _
  have hnn2 : (0 : ℚ) ≤ |fVal (flOfInt a)| := abs_nonneg _
  have hnn3 : (0 : ℚ) ≤ |((a : ℤ) : ℚ)| := abs_nonneg _
  rw [hc2] at h4
  nlinarith [h1, h2, h3, h4]

theorem initAlloc_abs_le (a : ℤ) (w s : ℕ) (hs : s ≠ 0) (hws : w ≤ s)
    (hr : 32 * a.natAbs < 2 ^ 63) :
    (intOfFloat (flMul (flDiv (flOfNat w) (flOfNat s)) (flOfInt a))).natAbs
      ≤ 32 * a.natAbs := by
  have hq := allocation_trunc_bound a w s hs hws
  set t := truncF (flMul (flDiv (flOfNat w) (flOfNat s)) (flOfInt a)) with ht
  have hz : (t.natAbs : ℚ) ≤ ((32 * a.natAbs : ℕ) : ℚ) := by
    push_cast
    linarith
  have hn : t.natAbs ≤ 32 * a.natAbs := by exact_mod_cast hz
  have hrange : -2 ^ 63 ≤ t ∧ t < 2 ^ 63 := by omega
  have hio : intOfFloat (flMul (flDiv (flOfNat w) (flOfNat s)) (flOfInt a))
      = t := by
    unfold intOfFloat
    rw [← ht, if_pos hrange]
  rw [hio]
  exact hn

/-- The ratio float is bounded by `8 w / s` (multiplied form). -/
theorem ratio_mul_le (w s : ℕ) (hs : s ≠ 0) :
    |fVal (flDiv (flOfNat w) (flOfNat s))| * s ≤ 8 * w := by
  by_cases hw : w = 0
  · have hx : (flOfNat w).1 = 0 := by
      subst hw
      unfold flOfNat
      rw [roundPos_zero_num]
      simp
    have h0 : (flDiv (flOfNat w) (flOfNat s)).1 = 0 := by
      unfold flDiv
      rw [hx]
      simp [roundPos_zero_num]
    rw [fVal_abs, h0]
    subst hw
    simp
  · have h1 := flDiv_abs_le (flOfNat w) (flOfNat s) (flOfNat_mantissa_ne s hs)
    have h2 := (flOfNat_bracket w hw).2
    have h3 := (flOfNat_bracket s hs).1
    have h4 := flOfNat_nonneg w
    have h5 := flOfNat_nonneg s
    rw [abs_of_nonneg h4, abs_of_nonneg h5] at h1
    have hspos : (0 : ℚ) < fVal (flOfNat s) := by
      have hq : (0 : ℚ) < (s : ℚ) := by
        have := Nat.pos_of_ne_zero hs
        exact_mod_cast this
      linarith
    have h1' : |fVal (flDiv (flOfNat w) (flOfNat s))| * fVal (flOfNat s)
        ≤ 2 * fVal (flOfNat w) := by
      have := (le_div_iff₀ hspos).mp h1
      linarith [this]
    have habs : (0 : ℚ) ≤ |fVal (flDiv (flOfNat w) (flOfNat s))| := abs_nonneg _
    nlinarith [h1', h2, h3, habs, hspos]

theorem allocation_trunc_mul (a : ℤ) (w s : ℕ) (hs : s ≠ 0) :
    ((truncF (flMul (flDiv (flOfNat w) (flOfNat s)) (flOfInt a))).natAbs : ℚ)
      * s ≤ 32 * w * (a.natAbs : ℚ) := by
  have h1 := truncF_abs_le (flMul (flDiv (flOfNat w) (flOfNat s)) (flOfInt a))
  have h2 := flMul_abs_le (flDiv (flOfNat w) (flOfNat s)) (flOfInt a)
  have h3 := ratio_mul_le w s hs
  have h4 := flOfInt_abs_le a
  have hc1 : ((truncF (flMul (flDiv (flOfNat w) (flOfNat s))
      (flOfInt a))).natAbs : ℚ) =
      |((truncF (flMul (flDiv (flOfNat w) (flOfNat s)) (flOfInt a)) : ℤ) : ℚ)| := by
    rw [Int.cast_natAbs, Int.cast_abs]
  have hc2 : (a.natAbs : ℚ) = |((a : ℤ) : ℚ)| := by
    rw [Int.cast_natAbs, Int.cast_abs]
  rw [hc1, hc2]
  have hnn1 : (0 : ℚ) ≤ |fVal (flDiv (flOfNat w) (flOfNat s))| := abs_nonneg _
  have hnn2 : (0 : ℚ) ≤ |fVal (flOfInt a)| := abs_nonneg _
  have hnn3 : (0 : ℚ) ≤ |((a : ℤ) : ℚ)| := abs_nonneg _
  have hnn4 : (0 : ℚ) ≤ (s : ℚ) := by positivity
  have hnn5 : (0 : ℚ) ≤ (w : ℚ) := by positivity
  rw [hc2] at h4
  nlinarith [h1, h2, h3, h4, mul_nonneg hnn1 hnn2]

/-- Weighted per-allocation bound: `|a[i]| * s ≤ 32 * w[i] * |atoms|`;
summing it over the weights (whose total is `s`) bounds the whole
initial allocation by `32 * |atoms|`. -/
theorem initAlloc_mul_le (a : ℤ) (w s : ℕ) (hs : s ≠ 0) (hws : w ≤ s)
    (hr : 32 * a.natAbs < 2 ^ 63) :
    (intOfFloat (flMul (flDiv (flOfNat w) (flOfNat s)) (flOfInt a))).natAbs * s
      ≤ 32 * w * a.natAbs := by
  have hq := allocation_trunc_bound a w s hs hws
  have hqm := allocation_trunc_mul a w s hs
  set t := truncF (flMul (flDiv (flOfNat w) (flOfNat s)) (flOfInt a)) with ht
  have hz : (t.natAbs : ℚ) ≤ ((32 * a.natAbs : ℕ) : ℚ) := by
    push_cast
    linarith
  have hn : t.natAbs ≤ 32 * a.natAbs := by exact_mod_cast hz
  have hrange : -2 ^ 63 ≤ t ∧ t < 2 ^ 63 := by omega
  have hio : intOfFloat (flMul (flDiv (flOfNat w) (flOfNat s)) (flOfInt a))
      = t := by
    unfold intOfFloat
    rw [← ht, if_pos hrange]
  rw [hio]
  have hzm : ((t.natAbs * s : ℕ) : ℚ) ≤ ((32 * w * a.natAbs : ℕ) : ℚ) := by
    push_cast
    linarith
  exact_mod_cast hzm

theorem list_natAbs_sum_le : ∀ l : List ℤ, l.sum.natAbs ≤ (l.map Int.natAbs).sum := by
  intro l
  induction l with
  | nil => simp
  | cons a t ih =>
    simp only [List.sum_cons, List.map_cons]
    have h1 := Int.natAbs_add_le a t.sum
    omega

theorem map_natAbs_sum_le (W : List ℕ) (F : ℕ → ℤ) (s B : ℕ) (hs : s ≠ 0)
    (hsum : W.sum = s) (h : ∀ w ∈ W, (F w).natAbs * s ≤ 32 * w * B) :
    ((W.map F).map Int.natAbs).sum ≤ 32 * B := by
  have key : ((W.map F).map Int.natAbs).sum * s ≤ 32 * B * s := by
    rw [List.map_map, show (W.map (Int.natAbs ∘ F)).sum * s
        = (W.map (fun w => (F w).natAbs * s)).sum from by
      rw [← List.sum_map_mul_right]
      simp [Function.comp]]
    refine le_trans (List.sum_le_sum h) ?_
    have he : (fun w : ℕ => 32 * w * B) = fun w : ℕ => (32 * B) * w := by
      funext w
      ring
    rw [he, List.sum_map_mul_left]
    simp [hsum]
  exact Nat.le_of_mul_le_mul_right key (Nat.pos_of_ne_zero hs)

theorem usedWeights_sum_eq (ws : List ℕ) (hsum : ws.sum < 2 ^ 64)
    (hlen : ws.length < 2 ^ 64) :
    (usedWeights ws).sum = usedSum ws := by
  unfold usedWeights usedSum
  by_cases hz : sumWrapU ws = 0
  · rw [if_pos hz, if_pos hz, List.sum_replicate]
    show ws.length • 1 = wrapU64 ws.length
    unfold wrapU64
    rw [Nat.mod_eq_of_lt hlen]
    simp
  · rw [if_neg hz, if_neg hz, sumWrapU_eq, Nat.mod_eq_of_lt hsum]

/-- The summed magnitude of the initial allocations stays below
`32 * |atoms|`: each `|a[i]| * s ≤ 32 * w[i] * |atoms|` and the used
weights sum to `s`. -/
theorem initialAllocations_natAbs_sum (a : ℤ) (ws : List ℕ)
    (hS : usedSum ws ≠ 0) (hle : ∀ w ∈ usedWeights ws, w ≤ usedSum ws)
    (hws : (usedWeights ws).sum = usedSum ws)
    (hr : 32 * a.natAbs < 2 ^ 63) :
    ((initialAllocations a ws).map Int.natAbs).sum ≤ 32 * a.natAbs := by
  have heq : initialAllocations a ws = (usedWeights ws).map
      (fun w => intOfFloat (flMul (flDiv (flOfNat w) (flOfNat (usedSum ws)))
        (flOfInt a))) := by
    unfold initialAllocations ratios
    rw [List.map_map]
    rfl
  rw [heq]
  exact map_natAbs_sum_le (usedWeights ws) _ (usedSum ws) a.natAbs hS hws
    (fun w hw => initAlloc_mul_le a w (usedSum ws) hS (hle w hw) hr)

theorem sum_natAbs_le (B : ℕ) : ∀ (l : List ℤ), (∀ x ∈ l, x.natAbs ≤ B) →
    l.sum.natAbs ≤ l.length * B := by
  intro l
  induction l with
  | nil => intro _; simp
  | cons a t ih =>
    intro h
    simp only [List.sum_cons, List.length_cons]
    have h1 := h a (List.mem_cons_self a t)
    have h2 := ih (fun x hx => h x (List.mem_cons_of_mem a hx))
    have h3 := Int.natAbs_add_le a t.sum
    have h4 : (t.length + 1) * B = t.length * B + B := by ring
    omega

theorem usedWeights_le_usedSum (ws : List ℕ) (hne : ws ≠ [])
    (hsum : ws.sum < 2 ^ 64) (hlen : ws.length < 2 ^ 64) :
    usedSum ws ≠ 0 ∧ ∀ w ∈ usedWeights ws, w ≤ usedSum ws := by
  have hwrap : sumWrapU ws = ws.sum := by
    rw [sumWrapU_eq]
    exact Nat.mod_eq_of_lt hsum
  have hlp : 0 < ws.length := List.length_pos.mpr hne
  unfold usedWeights usedSum
  by_cases hz : sumWrapU ws = 0
  · rw [if_pos hz, if_pos hz]
    have hn : wrapU64 ws.length = ws.length := by
      unfold wrapU64
      exact Nat.mod_eq_of_lt hlen
    rw [hn]
    refine ⟨by omega, ?_⟩
    intro w hw
    have hw1 : w = 1 := List.eq_of_mem_replicate hw
    omega
  · rw [if_neg hz, if_neg hz]
    refine ⟨hz, ?_⟩
    intro w hw
    rw [hwrap]
    exact List.single_le_sum (fun x _ => Nat.zero_le x) w hw

theorem initialAllocations_mem_bound (a : ℤ) (ws : List ℕ)
    (hS : usedSum ws ≠ 0) (hle : ∀ w ∈ usedWeights ws, w ≤ usedSum ws)
    (hr : 32 * a.natAbs < 2 ^ 63) :
    ∀ ai ∈ initialAllocations a ws, ai.natAbs ≤ 32 * a.natAbs := by
  intro ai hai
  unfold initialAllocations ratios at hai
  rw [List.map_map] at hai
  obtain ⟨w, hw, hwe⟩ := List.mem_map.mp hai
  rw [← hwe]
  exact initAlloc_abs_le a w (usedSum ws) hS (hle w hw) hr

/-- Within the no-overflow envelope the distribution loop runs entirely
in range — every slice write, the remainder and the `int` counter — and
exits normally with the whole amount distributed exactly. -/
theorem share_envelope_run (x : Money) (ws : List ℕ) (hne : ws ≠ [])
    (hsum : ws.sum < 2 ^ 64)
    (henv : 64 * (ws.length + 2) * (x.a.natAbs + 1) < 2 ^ 63) :
    ∃ alloc, shareResult x ws = .ok alloc 0 ∧
      alloc.sum = x.a ∧ alloc.length = ws.length := by
  have hexp : 64 * (ws.length + 2) * (x.a.natAbs + 1)
      = 64 * (ws.length * x.a.natAbs) + 64 * ws.length + 128 * x.a.natAbs
        + 128 := by ring
  rw [hexp] at henv
  obtain ⟨M, hM⟩ : ∃ M, ws.length * x.a.natAbs = M := ⟨_, rfl⟩
  rw [hM] at henv
  have hlp : 0 < ws.length := List.length_pos.mpr hne
  have h32 : 32 * x.a.natAbs < 2 ^ 63 := by omega
  have hN64 : ws.length < 2 ^ 64 := by omega
  obtain ⟨hS, hle⟩ := usedWeights_le_usedSum ws hne hsum hN64
  have hbnd := initialAllocations_mem_bound x.a ws hS hle h32
  have hsummed := initialAllocations_natAbs_sum x.a ws hS hle
    (usedWeights_sum_eq ws hsum hN64) h32
  have habs_sum : (initialAllocations x.a ws).sum.natAbs ≤ 32 * x.a.natAbs :=
    le_trans (list_natAbs_sum_le _) hsummed
  have hremeq : initialRem x.a ws = x.a - (initialAllocations x.a ws).sum := by
    rw [initialRem_eq x.a ws hne]
    apply wrap64_eq_self <;> omega
  have hrem_abs : (initialRem x.a ws).natAbs ≤ 33 * x.a.natAbs := by
    rw [hremeq]
    omega
  have hentry : ∀ m ∈ initialAllocations x.a ws,
      m.natAbs + 33 * x.a.natAbs < 2 ^ 63 := by
    intro m hm
    have := hbnd m hm
    omega
  have hE := usedWeights_eligible ws hne
  have hk : 33 * x.a.natAbs < 2 ^ 63 := by omega
  obtain ⟨F, hF⟩ : ∃ F, ws.length * (33 * x.a.natAbs) = F := ⟨_, rfl⟩
  have hmono : ws.length * (33 * x.a.natAbs) ≤ ws.length * 2 ^ 63 :=
    Nat.mul_le_mul_left _ (le_of_lt hk)
  rw [hF] at hmono
  have hfuel : ws.length * (33 * x.a.natAbs) + 1 ≤ shareFuel ws.length := by
    rw [hF]
    show _ ≤ ws.length * 2 ^ 63 + ws.length + 1
    omega
  have hbud : (0 : ℤ) + ((ws.length * (33 * x.a.natAbs) : ℕ) : ℤ) + 1
      ≤ 2 ^ 63 := by
    have h33 : ws.length * (33 * x.a.natAbs) = 33 * M := by
      rw [← hM]
      ring
    rw [h33]
    push_cast
    omega
  have hsign : ((if initialRem x.a ws < 0 then (-1 : ℤ) else 1) = 1
        ∧ 0 ≤ initialRem x.a ws)
      ∨ ((if initialRem x.a ws < 0 then (-1 : ℤ) else 1) = -1
        ∧ initialRem x.a ws ≤ 0) := by
    by_cases hneg : initialRem x.a ws < 0
    · right
      rw [if_pos hneg]
      exact ⟨rfl, by omega⟩
    · left
      rw [if_neg hneg]
      exact ⟨rfl, by omega⟩
  obtain ⟨alloc, hok, hsum2, hlen2⟩ := shareLoop_run (usedWeights ws)
    ws.length (if initialRem x.a ws < 0 then -1 else 1) (33 * x.a.natAbs)
    (shareFuel ws.length) 0 (initialAllocations x.a ws) (initialRem x.a ws)
    hE hsign hrem_abs hfuel (by omega) hbud
    (initialAllocations_length x.a ws) hentry
  refine ⟨alloc, ?_, ?_, hlen2⟩
  · rw [shareResult_eq]
    exact hok
  · rw [hsum2, hremeq]
    ring

/-- The faulting run, put together: for 2 atoms and weightings
`[0, 2^64 - 4, 8]` the wrapped weight sum is 4, the middle initial
allocation overflows the `int` conversion to `-2^63`, the remainder is
`2^63 - 2`, and the loop faults once the counter wraps. -/
theorem shareResult_fault :
    shareResult ⟨"GBP", 2⟩ [0, 2 ^ 64 - 4, 8] = .fault := by
  show shareLoop (usedWeights [0, 2 ^ 64 - 4, 8]) 3
    (if initialRem 2 [0, 2 ^ 64 - 4, 8] < 0 then -1 else 1)
    (shareFuel 3) 0 (initialAllocations 2 [0, 2 ^ 64 - 4, 8])
    (initialRem 2 [0, 2 ^ 64 - 4, 8]) = .fault
  rw [show usedWeights [0, 2 ^ 64 - 4, 8] = [0, 2 ^ 64 - 4, 8] from by decide,
    show initialRem 2 [0, 2 ^ 64 - 4, 8] = 2 ^ 63 - 2 from by decide,
    if_neg (show ¬((2 ^ 63 - 2 : ℤ) < 0) by norm_num)]
  exact shareLoop_fault_full _ _ (by norm_num [shareFuel])

/-- A faulting loop makes `Share` abort: the returned value is `none`
without the conservation check ever being evaluated. -/
theorem share_of_fault (x : Money) (ws : List ℕ)
    (h : shareResult x ws = .fault) : (x.Share ws).1 = none := by
  show shareOutcome x ws = none
  unfold shareOutcome
  rw [h]

/-! ## Supporting lemmas: decimal digits and the formatter -/

theorem char_isDigit_toNat {c : Char} (h : c.isDigit) :
    48 ≤ c.toNat ∧ c.toNat ≤ 57 := by
  simp [Char.isDigit] at h
  exact h

theorem digitVal_lt_ten {c : Char} (h : c.isDigit) : digitVal c < 10 := by
  have hb := char_isDigit_toNat h
  unfold digitVal
  omega

theorem digitChar_digitVal {c : Char} (h : c.isDigit) :
    digitChar (digitVal c) = c := by
  have hb := char_isDigit_toNat h
  unfold digitChar digitVal
  rw [show 48 + (c.toNat - 48) = c.toNat by omega]
  exact Char.ofNat_toNat c

theorem digitVal_eq_zero {c : Char} (h : c.isDigit) (hz : digitVal c = 0) :
    c = '0' := by
  have hb := char_isDigit_toNat h
  have ht : c.toNat = 48 := by unfold digitVal at hz; omega
  have ho := congrArg Char.ofNat ht
  rw [Char.ofNat_toNat] at ho
  rw [ho]

theorem natDigitsRev_zero (f : ℕ) : natDigitsRev f 0 = [] := by
  cases f <;> simp [natDigitsRev]

theorem natDigitsRev_succ (f n : ℕ) :
    natDigitsRev (f + 1) n =
      if n = 0 then [] else n % 10 :: natDigitsRev f (n / 10) := rfl

theorem valN_ge_init : ∀ (l : List ℕ) (a : ℕ),
    a ≤ l.foldl (fun a d => a * 10 + d) a := by
  intro l
  induction l with
  | nil => intro a; simp
  | cons d t ih =>
    intro a
    simp only [List.foldl_cons]
    calc a ≤ a * 10 + d := by omega
    _ ≤ _ := ih _

theorem valN_append_digit (l : List ℕ) (d : ℕ) :
    (l ++ [d]).foldl (fun a d => a * 10 + d) 0 =
      (l.foldl (fun a d => a * 10 + d) 0) * 10 + d := by
  rw [List.foldl_append]
  rfl

theorem valN_cons_pos {x : ℕ} (t : List ℕ) (hx : x ≠ 0) :
    0 < (x :: t).foldl (fun a d => a * 10 + d) 0 := by
  have h1 : x ≤ (x :: t).foldl (fun a d => a * 10 + d) 0 := by
    simp only [List.foldl_cons]
    calc x ≤ 0 * 10 + x := by omega
    _ ≤ _ := valN_ge_init t _
  omega

theorem natDigitsRev_valN : ∀ (D : List ℕ), (∀ d ∈ D, d < 10) →
    D.headI ≠ 0 → ∀ f, D.foldl (fun a d => a * 10 + d) 0 ≤ f →
    natDigitsRev f (D.foldl (fun a d => a * 10 + d) 0) = D.reverse := by
  intro D
  induction D using List.reverseRecOn with
  | nil => intro _ hh; exact absurd rfl hh
  | append_singleton D' d ih =>
    intro hdig hh f hf
    rw [valN_append_digit] at hf ⊢
    have hd10 : d < 10 := hdig d (by simp)
    by_cases hD' : D' = []
    · subst hD'
      have hd0 : d ≠ 0 := by simpa using hh
      simp only [List.foldl_nil] at hf ⊢
      obtain ⟨g, rfl⟩ : ∃ g, f = g + 1 := ⟨f - 1, by omega⟩
      rw [natDigitsRev_succ, if_neg (by omega),
        show (0 * 10 + d) % 10 = d by omega,
        show (0 * 10 + d) / 10 = 0 by omega, natDigitsRev_zero]
      simp
    · have hh' : D'.headI ≠ 0 := by
        rcases D' with _ | ⟨x, t⟩
        · exact absurd rfl hD'
        · simpa using hh
      have hv'pos : 0 < D'.foldl (fun a d => a * 10 + d) 0 := by
        rcases D' with _ | ⟨x, t⟩
        · exact absurd rfl hD'
        · exact valN_cons_pos t (by simpa using hh')
      obtain ⟨g, rfl⟩ : ∃ g, f = g + 1 := ⟨f - 1, by omega⟩
      rw [natDigitsRev_succ, if_neg (by omega),
        show (D'.foldl (fun a d => a * 10 + d) 0 * 10 + d) % 10 = d by omega,
        show (D'.foldl (fun a d => a * 10 + d) 0 * 10 + d) / 10 =
          D'.foldl (fun a d => a * 10 + d) 0 by omega,
        ih (fun x hx => hdig x (by simp [hx])) hh' g (by omega)]
      simp

theorem digitsVal_eq_mapVal (ds : List Char) :
    digitsVal ds = (ds.map digitVal).foldl (fun a d => a * 10 + d) 0 := by
  unfold digitsVal
  rw [List.foldl_map]

theorem itoaNat_digitsVal (ds : List Char) (hdig : ∀ c ∈ ds, c.isDigit)
    (hlead : ds = ['0'] ∨ ds.headI ≠ '0') (hne : ds ≠ []) :
    itoaNat (digitsVal ds) = ds := by
  rcases hlead with rfl | hh
  · decide
  · have hv := digitsVal_eq_mapVal ds
    have hmap10 : ∀ d ∈ ds.map digitVal, d < 10 := by
      intro d hd
      obtain ⟨c, hc, rfl⟩ := List.mem_map.mp hd
      exact digitVal_lt_ten (hdig c hc)
    have hheadI : (ds.map digitVal).headI ≠ 0 := by
      rcases ds with _ | ⟨c, t⟩
      · exact absurd rfl hne
      · show digitVal c ≠ 0
        intro hz
        exact hh (by simpa using digitVal_eq_zero (hdig c (by simp)) hz)
    have hvpos : digitsVal ds ≠ 0 := by
      rw [hv]
      rcases hm : ds.map digitVal with _ | ⟨x, t⟩
      · exact absurd (List.map_eq_nil_iff.mp hm) hne
      · have hx : x ≠ 0 := by rw [hm] at hheadI; simpa using hheadI
        have := valN_cons_pos t hx
        omega
    unfold itoaNat natToDigits
    rw [if_neg hvpos]
    rw [hv, natDigitsRev_valN (ds.map digitVal) hmap10 hheadI _ (le_refl _)]
    rw [List.reverse_reverse, List.map_map]
    have hid : ∀ c ∈ ds, (digitChar ∘ digitVal) c = c :=
      fun c hc => digitChar_digitVal (hdig c hc)
    calc ds.map (digitChar ∘ digitVal) = ds.map id := List.map_congr_left hid
    _ = ds := List.map_id ds

theorem itoaInt_ofNat (v : ℕ) : itoaInt (v : ℤ) = itoaNat v := by
  unfold itoaInt
  rw [if_neg (by omega)]
  simp

theorem goQuot_ofNat (v n : ℕ) : goQuot (v : ℤ) n = ((v / n : ℕ) : ℤ) := by
  unfold goQuot
  rw [if_pos (by omega)]
  simp

theorem goRem_ofNat (v n : ℕ) : goRem (v : ℤ) n = ((v % n : ℕ) : ℤ) := by
  unfold goRem
  rw [if_pos (by omega)]
  simp

theorem digitsVal_pair (d1 d2 : Char) :
    digitsVal [d1, d2] = digitVal d1 * 10 + digitVal d2 := by
  show (0 * 10 + digitVal d1) * 10 + digitVal d2 = _
  ring

theorem pad2_digits (d1 d2 : Char) (h1 : d1.isDigit) (h2 : d2.isDigit) :
    pad2 ((digitsVal [d1, d2] : ℕ) : ℤ) = [d1, d2] := by
  have hp := digitsVal_pair d1 d2
  have hv1 := digitVal_lt_ten h1
  have hv2 := digitVal_lt_ten h2
  unfold pad2
  rw [itoaInt_ofNat]
  by_cases hz : digitVal d1 = 0
  · have hd1 : d1 = '0' := digitVal_eq_zero h1 hz
    have hvv : digitsVal [d1, d2] = digitVal d2 := by omega
    rw [hvv]
    by_cases hz2 : digitVal d2 = 0
    · have hd2 : d2 = '0' := digitVal_eq_zero h2 hz2
      rw [hz2]
      show (if (itoaNat 0).length < 2 then '0' :: itoaNat 0 else itoaNat 0) =
        [d1, d2]
      rw [show itoaNat 0 = ['0'] from rfl, if_pos (by simp), hd1, hd2]
    · have hrec := natDigitsRev_valN [digitVal d2] (by simpa using hv2)
        (by simpa using hz2) (digitVal d2) (by simp)
      rw [show [digitVal d2].foldl (fun a d => a * 10 + d) 0 = digitVal d2
        from by simp] at hrec
      have hit : itoaNat (digitVal d2) = [d2] := by
        unfold itoaNat natToDigits
        rw [if_neg hz2, hrec]
        simp [digitChar_digitVal h2]
      rw [hit, if_pos (by simp), hd1]
  · have harg : [digitVal d1, digitVal d2].foldl (fun a d => a * 10 + d) 0 =
        digitsVal [d1, d2] := by
      rw [hp]
      simp only [List.foldl_cons, List.foldl_nil]
      omega
    have hrec := natDigitsRev_valN [digitVal d1, digitVal d2]
      (by intro d hd; simp at hd; rcases hd with rfl | rfl <;> omega)
      (by simpa using hz) (digitsVal [d1, d2]) (by rw [harg])
    rw [harg] at hrec
    have hit : itoaNat (digitsVal [d1, d2]) = [d1, d2] := by
      unfold itoaNat natToDigits
      rw [if_neg (by omega), hrec]
      simp [digitChar_digitVal h1, digitChar_digitVal h2]
    rw [hit, if_neg (by simp)]

theorem Amount_nonneg (cur : String) (a : ℕ) :
    (Money.mk cur (a : ℤ)).Amount =
      itoaInt (goQuot (a : ℤ) 100) ++ '.' :: pad2 (goRem (a : ℤ) 100) := by
  unfold Money.Amount
  simp only [if_neg (show ¬((a : ℤ) < 0) by omega)]
  simp

theorem Amount_negative (cur : String) (a : ℕ) (h : 0 < a)
    (h2 : (a : ℤ) < 2 ^ 63) :
    (Money.mk cur (-(a : ℤ))).Amount =
      '-' :: (itoaInt (goQuot (a : ℤ) 100) ++ '.' :: pad2 (goRem (a : ℤ) 100)) := by
  unfold Money.Amount
  have hn : (-(a : ℤ)) < 0 := by omega
  simp only [if_pos hn]
  rw [show -(-(a : ℤ)) = (a : ℤ) by ring, wrap64_eq_self (by omega) h2]
  simp

/-- Claim C1 is false as stated: the `uint` weight sum wraps at 64 bits,
so for the weightings `[2^63 - 1024, 2^63 - 1024, 2050]` (whose true sum
is `2^64 + 2`) the computed sum is `2`, and sharing 2 atoms returns three
Money values whose atoms sum to `2^64 + 2`, not to `2`.  The wrapped
conservation check still passes, so the slice is returned. -/
theorem C1_counterexample :
    ((Money.Share ⟨"GBP", 2⟩ [2 ^ 63 - 1024, 2 ^ 63 - 1024, 2050]).1.map
      (fun l => (l.map Money.a).sum)) = some 18446744073709551618 ∧
    (18446744073709551618 : ℤ) ≠ 2 := by decide

/-- Claim C2 is false as stated: `Share` computes the initial allocations
through `float64` ratios, not by exact integer multiply-then-divide.
For `x.atoms = 3741453995231433` and weights `[3, 1]`: the float product
`0.75 * float64(x.atoms)` falls on a representable-value tie and rounds
(ties-to-even) up to `2806090496423575`, while the exact truncated
quotient `(3 * x.atoms) / 4` is `2806090496423574`. -/
theorem C2_counterexample :
    (initialAllocations 3741453995231433 [3, 1]).getD 0 0 = 2806090496423575 ∧
    goQuot (3 * 3741453995231433) 4 = 2806090496423574 ∧
    (2806090496423575 : ℤ) ≠ 2806090496423574 := by decide

/-- Claim C3 is false as stated, in two ways.  `"100"` matches the
grammar and parses, but yields atoms `100`, not
`sign * (integerPart * 100 + fractionalPart) = 10000`: with the
fractional group absent the code uses the integer part directly as
atoms.  And `"9223372036854775808"` matches the grammar yet is rejected,
because `strconv.Atoi` fails with `ErrRange` above `maxInt64`. -/
theorem C3_counterexample :
    strToInt "100".toList = some 100 ∧ (100 : ℤ) ≠ 100 * 100 + 0 ∧
    amountGrammar "9223372036854775808".toList ∧
    strToInt "9223372036854775808".toList = none := by
  refine ⟨by decide, by decide, ⟨false, "9223372036854775808".toList, [], ?_⟩, by decide⟩
  exact ⟨by decide, by decide, by decide, Or.inl rfl⟩

/-- Claim C4 is false as stated: the fallback triggers whenever the
wrapped `uint` sum is zero, which also happens for `[2^63, 2^63]` — a
weighting that is not all-zero but is still replaced by `[1, 1]`. -/
theorem C4_counterexample :
    usedWeights [2 ^ 63, 2 ^ 63] = [1, 1] ∧
    ¬∀ w ∈ [2 ^ 63, 2 ^ 63], w = 0 := by decide

/-- Claim C7 is false as stated: `"-0.00"` is a canonical 2-decimal
string, but it parses to atoms `0` and formats back as `"0.00"`. -/
theorem C7_counterexample :
    strToInt "-0.00".toList = some 0 ∧
    (Money.mk "GBP" 0).Amount = "0.00".toList ∧
    "0.00".toList ≠ "-0.00".toList := by decide

/-- Claim C8 is false as stated: in the all-zero fallback `Share` writes
the substituted ones into the caller's slice, so after
`Share(x, [0, 0])` the caller's sequence holds `[1, 1]`. -/
theorem C8_counterexample :
    (Money.Share ⟨"GBP", 30000⟩ [0, 0]).2 = [1, 1] ∧
    ([1, 1] : List ℕ) ≠ [0, 0] := by decide

/-- Claim C9 is false as stated: `Add` on two valid Money values with
atoms `2^62` wraps (Go `int` overflow is two's-complement), returning
atoms `-2^63` rather than the mathematical sum `2^63`. -/
theorem C9_counterexample :
    Money.Add ⟨"GBP", 2 ^ 62⟩ ⟨"GBP", 2 ^ 62⟩ = some ⟨"GBP", -(2 ^ 63)⟩ ∧
    (-(2 ^ 63) : ℤ) ≠ 2 ^ 62 + 2 ^ 62 := by decide

/-- Claim C6 is false as stated: there are inputs on which the
conservation check point is never reached, because the loop's `int`
counter overflows first.  Sharing 2 atoms over `[0, 2^64 - 4, 8]`
(wrapped `uint` sum 4), the middle initial allocation overflows the
`int(...)` conversion to `-2^63`, leaving remainder `2^63 - 2`; with
only two of every three visits eligible, the counter reaches
`2^63 - 1` and wraps while the remainder is still positive, and
`weightings[i % n]` with `i % n = -2` panics with index out of range —
`Share` aborts without returning and without evaluating the check. -/
theorem C6_counterexample :
    shareResult ⟨"GBP", 2⟩ [0, 2 ^ 64 - 4, 8] = .fault ∧
    (Money.Share ⟨"GBP", 2⟩ [0, 2 ^ 64 - 4, 8]).1 = none :=
  ⟨shareResult_fault, share_of_fault _ _ shareResult_fault⟩

/-- Claim C10 is false as stated: `Share` does not terminate normally
on every non-empty weighting.  On 2 atoms with `[0, 2^64 - 4, 8]` the
remainder starts at `2^63 - 2` and shrinks by at most two units per
three iterations, so it is still positive when the loop's `int`
counter overflows past `2^63 - 1`; the run aborts mid-loop with an
index-out-of-range panic and the remainder never reaches 0. -/
theorem C10_counterexample :
    shareResult ⟨"GBP", 2⟩ [0, 2 ^ 64 - 4, 8] = .fault ∧
    ∀ alloc : List ℤ,
      shareResult ⟨"GBP", 2⟩ [0, 2 ^ 64 - 4, 8] ≠ .ok alloc 0 := by
  refine ⟨shareResult_fault, fun alloc h => ?_⟩
  rw [shareResult_fault] at h
  exact LoopResult.noConfusion h

/-! ## Claim theorems -/

/-- Claim C4 (amended): the all-ones fallback triggers exactly when the
64-bit wrapped `uint` sum of the weights is zero; when the true sum is
below `2^64` that condition is exactly "every weight is 0", and without
the trigger the weights are used exactly as given. -/
theorem C4_zero_fallback (ws : List ℕ) (h : ws.sum < 2 ^ 64) :
    ((sumWrapU ws = 0) ↔ ∀ w ∈ ws, w = 0) ∧
    (sumWrapU ws = 0 → usedWeights ws = List.replicate ws.length 1) ∧
    (sumWrapU ws ≠ 0 → usedWeights ws = ws) := by
  refine ⟨?_, fun hs => ?_, fun hs => ?_⟩
  · rw [sumWrapU_eq, Nat.mod_eq_of_lt h]
    exact List.sum_eq_zero_iff
  · unfold usedWeights; rw [if_pos hs]
  · unfold usedWeights; rw [if_neg hs]

theorem C4_zero_fallback_witness : usedWeights [0, 0] = [1, 1] := by
  have h := (C4_zero_fallback [0, 0] (by norm_num)).2.1 (by decide)
  simpa using h

/-- Claim C5: the remainder-distribution loop walks indices `0, 1, 2, …`
modulo N in original order, skips indices with weight 0, and adds `d` at
the first eligible position while the remainder loses one unit — so
earlier eligible positions receive the surplus or deficit first.  The
walk equation is stated for an `int` counter still in range, which
covers every visit of a run that completes (the wrapped counter's fault
is the subject of C6/C10).  The direction `d` is `-1` exactly when the
initial remainder is negative, and the spec examples hold:
`share("1.05", [3,7]) = ["0.32", "0.73"]` and
`share("0.05", [1,1]) = ["0.03", "0.02"]`. -/
theorem C5_remainder_distribution :
    (∀ (ws : List ℕ) (n : ℕ) (d : ℤ), 0 < n →
      ∀ (g fuel : ℕ) (i : ℤ) (alloc : List ℤ) (rem : ℤ), rem ≠ 0 →
      0 ≤ i → i + g + 1 < 2 ^ 63 →
      (∀ t : ℕ, t < g → ws.getD ((i.toNat + t) % n) 0 = 0) →
      ws.getD ((i.toNat + g) % n) 0 ≠ 0 →
      shareLoop ws n d (fuel + (g + 1)) i alloc rem =
        shareLoop ws n d fuel (i + g + 1)
          (alloc.set ((i.toNat + g) % n)
            (wrap64 (alloc.getD ((i.toNat + g) % n) 0 + d)))
          (wrap64 (rem - d))) ∧
    (∀ (x : Money) (ws : List ℕ),
      shareResult x ws = shareLoop (usedWeights ws) ws.length
        (if initialRem x.a ws < 0 then -1 else 1) (shareFuel ws.length) 0
        (initialAllocations x.a ws) (initialRem x.a ws)) ∧
    ((Money.Share ⟨"GBP", 105⟩ [3, 7]).1.map (fun l => l.map Money.Amount)
        = some ["0.32".toList, "0.73".toList]) ∧
    ((Money.Share ⟨"GBP", 5⟩ [1, 1]).1.map (fun l => l.map Money.Amount)
        = some ["0.03".toList, "0.02".toList]) :=
  ⟨fun ws n d hn => shareLoop_advance ws n d hn,
    fun x ws => shareResult_eq x ws, by decide, by decide⟩

theorem C5_remainder_distribution_witness :
    shareLoop [3, 7] 2 1 (0 + (0 + 1)) 0 [31, 73] 1 =
      shareLoop [3, 7] 2 1 0 ((0 : ℤ) + (0 : ℕ) + 1)
        ([31, 73].set (((0 : ℤ).toNat + 0) % 2)
          (wrap64 ([31, 73].getD (((0 : ℤ).toNat + 0) % 2) 0 + 1)))
        (wrap64 (1 - 1)) :=
  C5_remainder_distribution.1 [3, 7] 2 1 (by norm_num) 0 0 0 [31, 73] 1
    (by norm_num) (by norm_num) (by norm_num)
    (fun t ht => absurd ht (by omega)) (by decide)

/-- Claim C6 (amended): the conservation check itself never fails — on
every run that reaches it (a normal loop exit, `shareResult = ok`), the
wrapped total equals `x.atoms` and `Share` returns the slice, so the
`AllocationInvariantViolation` panic branch is unreachable.  The check
point, however, is not reached on every input: the loop can abort first
with an index-out-of-range fault when its `int` counter wraps (see the
counterexample). -/
theorem C6_check_never_panics (x : Money) (ws : List ℕ) (h : ws ≠ [])
    (h1 : -2 ^ 63 ≤ x.a) (h2 : x.a < 2 ^ 63) (alloc : List ℤ) (rem : ℤ)
    (hok : shareResult x ws = .ok alloc rem) :
    wrapTotal alloc = x.a ∧
    (x.Share ws).1 = some (alloc.map (fun ai => Money.mk x.c ai)) := by
  have hok2 := hok
  rw [shareResult_eq] at hok2
  obtain ⟨hr0, hmod, _⟩ := shareLoop_ok_spec (usedWeights ws) ws.length
    _ _ _ _ _ _ _ (initialAllocations_length x.a ws) hok2
  have hinit : ((initialAllocations x.a ws).sum + initialRem x.a ws) % 2 ^ 64
      = x.a % 2 ^ 64 := by
    rw [initialRem_eq x.a ws h]
    have := wrap64_emod (x.a - (initialAllocations x.a ws).sum)
    omega
  have hsum : alloc.sum % 2 ^ 64 = x.a % 2 ^ 64 := by
    rw [hr0] at hmod
    omega
  have hwt : wrapTotal alloc = x.a := by
    rw [wrapTotal_eq]
    have hc := wrap64_congr hsum
    rwa [wrap64_eq_self h1 h2] at hc
  refine ⟨hwt, ?_⟩
  show shareOutcome x ws = _
  unfold shareOutcome
  rw [hok]
  show (if wrapTotal alloc = x.a
    then some (alloc.map (fun ai => Money.mk x.c ai)) else none) = _
  rw [if_pos hwt]

theorem C6_check_never_panics_witness :
    wrapTotal [32, 73] = 105 ∧
    ((Money.mk "GBP" 105).Share [3, 7]).1 =
      some [Money.mk "GBP" 32, Money.mk "GBP" 73] :=
  C6_check_never_panics ⟨"GBP", 105⟩ [3, 7] (by decide) (by norm_num)
    (by norm_num) [32, 73] 0 (by decide)

/-- Claim C8 (amended): `Share` leaves the caller's weighting slice
unchanged unless the wrapped weight sum is zero, in which case it
overwrites the slice with N ones — a mutation that is visible to the
caller whenever a non-empty all-zero sequence is passed. -/
theorem C8_mutation (x : Money) (ws : List ℕ) :
    (sumWrapU ws ≠ 0 → (x.Share ws).2 = ws) ∧
    (sumWrapU ws = 0 → (x.Share ws).2 = List.replicate ws.length 1) ∧
    (ws ≠ [] → (∀ w ∈ ws, w = 0) → (x.Share ws).2 ≠ ws) := by
  refine ⟨fun hs => ?_, fun hs => ?_, fun hne hz => ?_⟩
  · show usedWeights ws = ws
    unfold usedWeights; rw [if_neg hs]
  · show usedWeights ws = _
    unfold usedWeights; rw [if_pos hs]
  · have hs : sumWrapU ws = 0 := by
      rw [sumWrapU_eq, List.sum_eq_zero hz]; rfl
    show usedWeights ws ≠ ws
    unfold usedWeights
    rw [if_pos hs]
    intro heq
    obtain ⟨w, hw⟩ := List.exists_mem_of_ne_nil ws hne
    have h1 : w = 0 := hz w hw
    rw [← heq] at hw
    have h2 := List.eq_of_mem_replicate hw
    omega

theorem C8_mutation_witness :
    (Money.Share ⟨"GBP", 30000⟩ [1, 2]).2 = [1, 2] :=
  (C8_mutation ⟨"GBP", 30000⟩ [1, 2]).1 (by decide)

/-- Claim C9 (amended): `Add`, `Sub` and `Cmp` signal `CurrencyMismatch`
(`none`) exactly when the currency codes differ; on equal codes `Cmp`
orders the atoms, and `Add`/`Sub` return the two's-complement 64-bit
wrap of the sum/difference of the atoms, which is the mathematical value
whenever that value fits `int64`. -/
theorem C9_arithmetic (x y : Money) :
    (x.Add y = none ↔ x.c ≠ y.c) ∧
    (x.Sub y = none ↔ x.c ≠ y.c) ∧
    (x.Cmp y = none ↔ x.c ≠ y.c) ∧
    (x.c = y.c → x.Add y = some ⟨x.c, wrap64 (x.a + y.a)⟩) ∧
    (x.c = y.c → x.Sub y = some ⟨x.c, wrap64 (x.a - y.a)⟩) ∧
    (x.c = y.c → -2 ^ 63 ≤ x.a + y.a → x.a + y.a < 2 ^ 63 →
      x.Add y = some ⟨x.c, x.a + y.a⟩) ∧
    (x.c = y.c → -2 ^ 63 ≤ x.a - y.a → x.a - y.a < 2 ^ 63 →
      x.Sub y = some ⟨x.c, x.a - y.a⟩) ∧
    (x.c = y.c →
      x.Cmp y = some (if x.a < y.a then -1 else if x.a = y.a then 0 else 1)) := by
  have hadd : x.Add y =
      if x.c ≠ y.c then none else some ⟨x.c, wrap64 (x.a + y.a)⟩ := rfl
  have hsub : x.Sub y =
      if x.c ≠ y.c then none else some ⟨x.c, wrap64 (x.a - y.a)⟩ := rfl
  have hcmp : x.Cmp y = if x.c ≠ y.c then none
      else some (if x.a < y.a then -1 else if x.a = y.a then 0 else 1) := rfl
  by_cases hc : x.c = y.c
  · have hnn : ¬x.c ≠ y.c := by simp [hc]
    rw [hadd, hsub, hcmp, if_neg hnn, if_neg hnn, if_neg hnn]
    refine ⟨by simp [hc], by simp [hc], by simp [hc], fun _ => rfl, fun _ => rfl,
      fun _ ha1 ha2 => ?_, fun _ hs1 hs2 => ?_, fun _ => rfl⟩
    · rw [wrap64_eq_self ha1 ha2]
    · rw [wrap64_eq_self hs1 hs2]
  · rw [hadd, hsub, hcmp, if_pos hc, if_pos hc, if_pos hc]
    exact ⟨by simp [hc], by simp [hc], by simp [hc], fun h => absurd h hc,
      fun h => absurd h hc, fun h => absurd h hc, fun h => absurd h hc,
      fun h => absurd h hc⟩

theorem C9_arithmetic_witness :
    Money.Add ⟨"GBP", 12345⟩ ⟨"GBP", 23456⟩ = some ⟨"GBP", 35801⟩ := by
  have h := (C9_arithmetic ⟨"GBP", 12345⟩ ⟨"GBP", 23456⟩).2.2.2.2.2.1 rfl
    (by norm_num) (by norm_num)
  simpa using h

/-- Claim C10 (amended): within the no-overflow envelope (non-empty
weights with true sum below `2^64` and
`64 * (N + 2) * (|atoms| + 1) < 2^63`) the remainder-distribution loop
terminates normally, reaching remainder 0 before the `int` counter can
overflow.  Outside the envelope the loop can instead abort mid-run with
an index-out-of-range fault (see the counterexample), so the universal
claim fails. -/
theorem C10_share_terminates (x : Money) (ws : List ℕ) (hne : ws ≠ [])
    (hsum : ws.sum < 2 ^ 64)
    (henv : 64 * (ws.length + 2) * (x.a.natAbs + 1) < 2 ^ 63) :
    ∃ alloc, shareResult x ws = .ok alloc 0 := by
  obtain ⟨alloc, hok, _, _⟩ := share_envelope_run x ws hne hsum henv
  exact ⟨alloc, hok⟩

theorem C10_share_terminates_witness :
    ∃ alloc, shareResult ⟨"GBP", 105⟩ [3, 7] = .ok alloc 0 :=
  C10_share_terminates ⟨"GBP", 105⟩ [3, 7] (by decide) (by decide) (by decide)

/-- Claim C2 (amended): each initial allocation `a[i]` is the
truncation toward zero of the binary64 (IEEE-754 double) computation
`float64(weights[i]) / float64(total) * float64(x.atoms)` — the
allocator's proportional step goes through float64 arithmetic, with the
deviation from the exact integer quotient exhibited in the
counterexample. -/
theorem C2_initial_allocation_float (a : ℤ) (ws : List ℕ) (i : ℕ)
    (h : i < ws.length) :
    (initialAllocations a ws).getD i 0 =
      intOfFloat (flMul (flDiv (flOfNat ((usedWeights ws).getD i 0))
        (flOfNat (usedSum ws))) (flOfInt a)) := by
  unfold initialAllocations ratios
  have hlen : i < (usedWeights ws).length := by
    rw [usedWeights_length]; exact h
  rw [List.getD_eq_getElem _ _ (by simpa [usedWeights_length] using h),
    List.getD_eq_getElem _ _ hlen]
  simp

theorem C2_initial_allocation_float_witness :
    (initialAllocations 105 [3, 7]).getD 0 0 =
      intOfFloat (flMul (flDiv (flOfNat ((usedWeights [3, 7]).getD 0 0))
        (flOfNat (usedSum [3, 7]))) (flOfInt 105)) :=
  C2_initial_allocation_float 105 [3, 7] 0 (by decide)

/-- Claim C3 (amended): the parser succeeds exactly on grammar-matching
strings (optional minus, digits, optional dot plus exactly two digits)
whose concatenated digit value is at most `maxInt64` (the `strconv.Atoi`
range check); when the fractional part is present the atoms are
`sign * (integerPart * 100 + fractionalPart)`, and when it is absent the
atoms are `sign * integerPart` — the integer part is not scaled by
100. -/
theorem C3_parser_grammar (s : List Char) :
    ((strToInt s).isSome ↔
      ∃ (neg : Bool) (ds fs : List Char),
        s = (if neg then ['-'] else []) ++ ds ++ fs ∧ ds ≠ [] ∧
        (∀ c ∈ ds, c.isDigit) ∧
        (fs = [] ∨ ∃ d1 d2, fs = ['.', d1, d2] ∧ d1.isDigit ∧ d2.isDigit) ∧
        digitsVal (ds ++ fs.filter Char.isDigit) ≤ maxInt64) ∧
    (∀ (neg : Bool) (ds : List Char) (d1 d2 : Char),
      s = (if neg then ['-'] else []) ++ ds ++ ['.', d1, d2] → ds ≠ [] →
      (∀ c ∈ ds, c.isDigit) → d1.isDigit → d2.isDigit →
      digitsVal ds * 100 + digitsVal [d1, d2] ≤ maxInt64 →
      strToInt s = some ((if neg then -1 else 1) *
        ((digitsVal ds : ℤ) * 100 + digitsVal [d1, d2]))) ∧
    (∀ (neg : Bool) (ds : List Char),
      s = (if neg then ['-'] else []) ++ ds → ds ≠ [] →
      (∀ c ∈ ds, c.isDigit) → digitsVal ds ≤ maxInt64 →
      strToInt s = some ((if neg then -1 else 1) * (digitsVal ds : ℤ))) := by
  have hval2 : ∀ (ds : List Char) (d1 d2 : Char),
      digitsVal (ds ++ [d1, d2]) = digitsVal ds * 100 + digitsVal [d1, d2] := by
    intro ds d1 d2
    rw [digitsVal_append]
    norm_num
  have hfilter : ∀ (d1 d2 : Char), d1.isDigit → d2.isDigit →
      List.filter Char.isDigit ['.', d1, d2] = [d1, d2] := by
    intro d1 d2 h1 h2
    have hdot : Char.isDigit '.' = false := by decide
    simp [List.filter, hdot, h1, h2]
  refine ⟨⟨?_, ?_⟩, ?_, ?_⟩
  · intro hsome
    rw [strToInt_eq] at hsome
    rcases hm : matchAmount s with _ | ⟨⟨neg, ds, frac⟩⟩
    · rw [hm] at hsome; simp at hsome
    · rw [hm] at hsome
      replace hsome : (if digitsVal (ds ++ frac) ≤ maxInt64
          then some (if neg then -(digitsVal (ds ++ frac) : ℤ)
            else (digitsVal (ds ++ frac) : ℤ))
          else none).isSome = true := hsome
      by_cases hv : digitsVal (ds ++ frac) ≤ maxInt64
      · obtain ⟨hds, hdig, hcase⟩ := matchAmount_sound hm
        rcases hcase with ⟨rfl, hs⟩ | ⟨d1, d2, rfl, hd1, hd2, hs⟩
        · refine ⟨neg, ds, [], by simpa using hs, hds, hdig, Or.inl rfl, ?_⟩
          simpa using hv
        · refine ⟨neg, ds, ['.', d1, d2], by simpa [List.append_assoc] using hs,
            hds, hdig, Or.inr ⟨d1, d2, rfl, hd1, hd2⟩, ?_⟩
          rw [hfilter d1 d2 hd1 hd2]
          exact hv
      · rw [if_neg hv] at hsome; simp at hsome
  · rintro ⟨neg, ds, fs, rfl, hds, hdig, hfs, hval⟩
    rcases hfs with rfl | ⟨d1, d2, rfl, hd1, hd2⟩
    · have hm := matchAmount_complete neg ds [] [] hds hdig (Or.inl ⟨rfl, rfl⟩)
      rw [strToInt_eq, hm]
      show (if digitsVal (ds ++ []) ≤ maxInt64
        then some (if neg then -(digitsVal (ds ++ []) : ℤ)
          else (digitsVal (ds ++ []) : ℤ))
        else none).isSome = true
      rw [if_pos (by simpa using hval)]
      rfl
    · have hm := matchAmount_complete neg ds ['.', d1, d2] [d1, d2] hds hdig
        (Or.inr ⟨d1, d2, rfl, rfl, hd1, hd2⟩)
      rw [strToInt_eq, hm]
      rw [hfilter d1 d2 hd1 hd2] at hval
      show (if digitsVal (ds ++ [d1, d2]) ≤ maxInt64
        then some (if neg then -(digitsVal (ds ++ [d1, d2]) : ℤ)
          else (digitsVal (ds ++ [d1, d2]) : ℤ))
        else none).isSome = true
      rw [if_pos hval]
      rfl
  · rintro neg ds d1 d2 rfl hds hdig hd1 hd2 hval
    have hm := matchAmount_complete neg ds ['.', d1, d2] [d1, d2] hds hdig
      (Or.inr ⟨d1, d2, rfl, rfl, hd1, hd2⟩)
    rw [strToInt_eq, hm]
    show (if digitsVal (ds ++ [d1, d2]) ≤ maxInt64
      then some (if neg then -(digitsVal (ds ++ [d1, d2]) : ℤ)
        else (digitsVal (ds ++ [d1, d2]) : ℤ))
      else none) = _
    rw [hval2, if_pos hval]
    congr 1
    cases neg
    · show ((digitsVal ds * 100 + digitsVal [d1, d2] : ℕ) : ℤ) =
        1 * ((digitsVal ds : ℤ) * 100 + (digitsVal [d1, d2] : ℤ))
      push_cast; ring
    · show (-(digitsVal ds * 100 + digitsVal [d1, d2] : ℕ) : ℤ) =
        -1 * ((digitsVal ds : ℤ) * 100 + (digitsVal [d1, d2] : ℤ))
      push_cast; ring
  · rintro neg ds rfl hds hdig hval
    have hm := matchAmount_complete neg ds [] [] hds hdig (Or.inl ⟨rfl, rfl⟩)
    rw [List.append_nil] at hm
    rw [strToInt_eq, hm]
    show (if digitsVal (ds ++ []) ≤ maxInt64
      then some (if neg then -(digitsVal (ds ++ []) : ℤ)
        else (digitsVal (ds ++ []) : ℤ))
      else none) = _
    rw [List.append_nil, if_pos hval]
    cases neg
    · simp
    · simp

/-- Claim C7 (amended): the formatter inverts the parser on every
canonical 2-decimal string whose integer part carries no superfluous
leading zero, whose value fits the int64 atom range, and which is not a
negative zero: for such `s`, `parse s` succeeds and
`format (parse s) = s`. -/
theorem C7_roundtrip (cur : String) (neg : Bool) (ds : List Char)
    (d1 d2 : Char) (hds : ds ≠ []) (hdig : ∀ c ∈ ds, c.isDigit)
    (hd1 : d1.isDigit) (hd2 : d2.isDigit)
    (hlead : ds = ['0'] ∨ ds.headI ≠ '0')
    (hval : digitsVal ds * 100 + digitsVal [d1, d2] ≤ maxInt64)
    (hnz : neg = true → digitsVal ds * 100 + digitsVal [d1, d2] ≠ 0) :
    ∃ a : ℤ,
      strToInt ((if neg then ['-'] else []) ++ ds ++ ['.', d1, d2]) = some a ∧
      (Money.mk cur a).Amount =
        (if neg then ['-'] else []) ++ ds ++ ['.', d1, d2] := by
  have hm64 : maxInt64 = 2 ^ 63 - 1 := rfl
  have hvf : digitsVal [d1, d2] < 100 := by
    have hx := digitVal_lt_ten hd1
    have hy := digitVal_lt_ten hd2
    rw [digitsVal_pair]
    omega
  have hv100 : digitsVal (ds ++ [d1, d2]) =
      digitsVal ds * 100 + digitsVal [d1, d2] := by
    rw [digitsVal_append]
    norm_num
  have hparse : strToInt ((if neg then ['-'] else []) ++ ds ++ ['.', d1, d2]) =
      some (if neg then -(digitsVal (ds ++ [d1, d2]) : ℤ)
        else (digitsVal (ds ++ [d1, d2]) : ℤ)) := by
    have hm := matchAmount_complete neg ds ['.', d1, d2] [d1, d2] hds hdig
      (Or.inr ⟨d1, d2, rfl, rfl, hd1, hd2⟩)
    rw [strToInt_eq, hm]
    show (if digitsVal (ds ++ [d1, d2]) ≤ maxInt64
      then some (if neg then -(digitsVal (ds ++ [d1, d2]) : ℤ)
        else (digitsVal (ds ++ [d1, d2]) : ℤ))
      else none) = _
    rw [if_pos (by omega)]
  have hq : digitsVal (ds ++ [d1, d2]) / 100 = digitsVal ds := by omega
  have hr : digitsVal (ds ++ [d1, d2]) % 100 = digitsVal [d1, d2] := by omega
  have hcore : itoaInt (goQuot ((digitsVal (ds ++ [d1, d2]) : ℕ) : ℤ) 100) ++
      '.' :: pad2 (goRem ((digitsVal (ds ++ [d1, d2]) : ℕ) : ℤ) 100) =
      ds ++ ['.', d1, d2] := by
    rw [goQuot_ofNat, goRem_ofNat, hq, hr, itoaInt_ofNat,
      itoaNat_digitsVal ds hdig hlead hds, pad2_digits d1 d2 hd1 hd2]
  refine ⟨if neg then -(digitsVal (ds ++ [d1, d2]) : ℤ)
    else (digitsVal (ds ++ [d1, d2]) : ℤ), hparse, ?_⟩
  cases neg
  · show (Money.mk cur ((digitsVal (ds ++ [d1, d2]) : ℕ) : ℤ)).Amount =
      [] ++ ds ++ ['.', d1, d2]
    rw [Amount_nonneg, hcore]
    simp
  · have hvnz : digitsVal (ds ++ [d1, d2]) ≠ 0 := by
      have := hnz rfl
      omega
    show (Money.mk cur (-((digitsVal (ds ++ [d1, d2]) : ℕ) : ℤ))).Amount =
      ['-'] ++ ds ++ ['.', d1, d2]
    rw [Amount_negative cur _ (by omega) (by omega), hcore]
    simp

theorem C7_roundtrip_witness :
    ∃ a : ℤ,
      strToInt ((if true then ['-'] else []) ++ ['4', '5'] ++ ['.', '6', '7'])
        = some a ∧
      (Money.mk "GBP" a).Amount =
        (if true then ['-'] else []) ++ ['4', '5'] ++ ['.', '6', '7'] :=
  C7_roundtrip "GBP" true ['4', '5'] '6' '7' (by decide) (by decide)
    (by decide) (by decide) (Or.inr (by decide)) (by decide) (by decide)

theorem C3_parser_grammar_witness :
    strToInt "-12.34".toList = some ((if true then -1 else 1) *
      ((digitsVal ['1', '2'] : ℤ) * 100 + digitsVal ['3', '4'])) := by
  exact (C3_parser_grammar "-12.34".toList).2.1 true ['1', '2'] '3' '4'
    (by decide) (by decide) (by decide) (by decide) (by decide) (by decide)

/-- C1 (amended): for every Money `x` and every non-empty weighting
sequence whose true sum is below `2^64` and which fits the no-overflow
envelope `64 * (N + 2) * (|atoms| + 1) < 2^63`, `Share` returns exactly
`N` Money values, each with the currency of `x`, whose atoms sum to
exactly `x.a`.  Inside the envelope every Go intermediate — the slice
writes, the remainder and the loop's `int` counter — provably stays in
range. -/
theorem C1_share_conserves (x : Money) (ws : List ℕ) (hne : ws ≠ [])
    (hsum : ws.sum < 2 ^ 64)
    (henv : 64 * (ws.length + 2) * (x.a.natAbs + 1) < 2 ^ 63) :
    ∃ res, (x.Share ws).1 = some res ∧ res.length = ws.length ∧
      (∀ m ∈ res, m.c = x.c) ∧ (res.map Money.a).sum = x.a := by
  obtain ⟨alloc, hok, hsum2, hlen⟩ := share_envelope_run x ws hne hsum henv
  have hA1 : x.a.natAbs + 1 ≤ 64 * (ws.length + 2) * (x.a.natAbs + 1) :=
    Nat.le_mul_of_pos_left _ (by positivity)
  have hwt : wrapTotal alloc = x.a := by
    rw [wrapTotal_eq, hsum2]
    apply wrap64_eq_self <;> omega
  refine ⟨alloc.map (fun ai => Money.mk x.c ai), ?_, ?_, ?_, ?_⟩
  · show shareOutcome x ws = _
    unfold shareOutcome
    rw [hok]
    show (if wrapTotal alloc = x.a
      then some (alloc.map (fun ai => Money.mk x.c ai)) else none) = _
    rw [if_pos hwt]
  · rw [List.length_map, hlen]
  · intro m hm
    obtain ⟨ai, _, hai⟩ := List.mem_map.mp hm
    rw [← hai]
  · rw [List.map_map]
    have hid : (Money.a ∘ fun ai => Money.mk x.c ai) = id := rfl
    rw [hid, List.map_id]
    exact hsum2

theorem C1_share_conserves_witness :
    ∃ res, ((Money.mk "GBP" 105).Share [3, 7]).1 = some res ∧
      res.length = 2 ∧ (∀ m ∈ res, m.c = "GBP") ∧
      (res.map Money.a).sum = 105 :=
  C1_share_conserves (Money.mk "GBP" 105) [3, 7] (by decide) (by decide)
    (by decide)

end Dough
